import Mathlib

/-!
# Verification of the transport-llm retrieval core

A shallow embedding, in Lean 4, of the retrieval-augmented-generation core of
the `transport-llm` repository: the dense similarity engine (`similarity.ts`),
the scorer (`scorer.ts`: domain weighting and MMR diversification), the
retriever (`retriever.ts`), the prompt assembler (`augment.ts`) and the
lexical TF-IDF engine (`rag.ts`).

Modelling conventions:

* JavaScript strings are lists of characters (`Str`); `length`, `slice`,
  `trim`, `toLowerCase` act on those lists.
* JavaScript numbers are rationals (`ℚ`).  The transcendental primitives
  `Math.sqrt` and `Math.log` are abstracted as explicit function parameters
  (`sq`, `lg`); no statement proved here depends on their values beyond what
  is stated.  `ℚ` has no `NaN`/`Infinity`; inputs whose JS evaluation goes
  through `NaN` are outside the modelled domain and are noted where relevant.
* A JavaScript `Map` is an insertion-ordered association list
  (`List (Str × α)`); `Map.set` overwrites in place or appends.
* A thrown `TypeError` (property access on `undefined`) is modelled by
  `Option.none`; runtime divergence (an infinite loop) is also `none`.
* `Array.prototype.sort` with the comparator `(a, b) => b.score - a.score`
  is a stable sort; stable sorting is deterministic for a fixed preorder, so
  it is modelled by a stable insertion sort on the same key.
-/

namespace TL

/-- JavaScript strings as lists of characters. -/
abbrev Str := List Char

/-- Literal JS string. -/
def strL (s : String) : Str := s.toList

/-- `String.prototype.toLowerCase` (ASCII range). -/
def strLower (s : Str) : Str := s.map Char.toLower

/-- The whitespace class used by `trim` and the regex class `\s`
(the common ASCII members; which exact Unicode members JS adds is
irrelevant to every statement below). -/
def jsWS (c : Char) : Bool :=
  c == ' ' || c == '\t' || c == '\n' || c == '\r'

/-- `String.prototype.trim`. -/
def jsTrim (s : Str) : Str :=
  ((s.dropWhile jsWS).reverse.dropWhile jsWS).reverse

/-- `slice(0, e)` on a JS array or string: a negative end offset counts from
the end, and the result is clamped to the available elements. -/
def jsSliceTo (l : List α) (e : ℤ) : List α :=
  if e < 0 then l.take ((l.length + e).toNat) else l.take e.toNat

/-- `Map.get` on an insertion-ordered association list. -/
def mget : List (Str × α) → Str → Option α
  | [], _ => none
  | p :: m, k => if p.1 = k then some p.2 else mget m k

/-- `Map.get(k) ?? d`. -/
def mgetD (m : List (Str × α)) (k : Str) (d : α) : α := (mget m k).getD d

/-- `Map.set`: overwrite the first occurrence in place, else append. -/
def mset : List (Str × α) → Str → α → List (Str × α)
  | [], k, v => [(k, v)]
  | p :: m, k, v => if p.1 = k then (k, v) :: m else p :: mset m k v

/-- The key sequence of a map (`Map.prototype.keys`, in insertion order). -/
def mkeys (m : List (Str × α)) : List Str := m.map Prod.fst

/-- Build a fresh `Map` from a pair sequence by repeated `set`. -/
def mofList (ps : List (Str × α)) : List (Str × α) :=
  ps.foldl (fun m p => mset m p.1 p.2) []

/-- Stable insertion (descending by key `f`): an incoming element goes after
every earlier element of greater-or-equal key, exactly as a JS stable sort
with comparator `(a, b) => f b - f a` arranges elements. -/
def insertDescBy (f : α → ℚ) (e : α) : List α → List α
  | [] => [e]
  | x :: xs => if f x ≥ f e then x :: insertDescBy f e xs else e :: x :: xs

/-- Stable sort, descending by key `f`. -/
def sortDescBy (f : α → ℚ) : List α → List α
  | [] => []
  | x :: xs => insertDescBy f x (sortDescBy f xs)

theorem insertDescBy_perm (f : α → ℚ) (e : α) (l : List α) :
    List.Perm (insertDescBy f e l) (e :: l) := by
  induction l with
  | nil => simp [insertDescBy]
  | cons x xs ih =>
    simp only [insertDescBy]
    by_cases h : f x ≥ f e
    · simp only [h, if_pos]
      exact ((ih.cons x).trans (List.Perm.swap e x xs))
    · simp [h]

theorem sortDescBy_perm (f : α → ℚ) (l : List α) : List.Perm (sortDescBy f l) l := by
  induction l with
  | nil => simp [sortDescBy]
  | cons x xs ih =>
    exact (insertDescBy_perm f x (sortDescBy f xs)).trans (ih.cons x)

theorem mem_sortDescBy {f : α → ℚ} {l : List α} {a : α} :
    a ∈ sortDescBy f l ↔ a ∈ l :=
  (sortDescBy_perm f l).mem_iff

theorem length_sortDescBy (f : α → ℚ) (l : List α) :
    (sortDescBy f l).length = l.length :=
  (sortDescBy_perm f l).length_eq

theorem mem_jsSliceTo {l : List α} {e : ℤ} {a : α} (h : a ∈ jsSliceTo l e) :
    a ∈ l := by
  unfold jsSliceTo at h
  split at h <;> exact List.mem_of_mem_take h

/-! ## Dense similarity engine (`similarity.ts`) -/

/-- `l2Normalize` from `similarity.ts`: compute the squared norm, derive a
multiplier that is `1 / Math.sqrt(s)` when the squared norm is positive and
`0` otherwise, and scale every component (the source mutates in place; the
model returns the scaled vector). -/
def l2Normalize (sq : ℚ → ℚ) (vec : List ℚ) : List ℚ :=
  let s := vec.foldl (fun a x => a + x * x) 0
  let inv := if s > 0 then 1 / sq s else 0
  vec.map (fun x => x * inv)

/-- One scored row: the `{ index, score }` records of `topKCosine`. -/
structure Hit where
  index : ℕ
  score : ℚ
  deriving DecidableEq

instance : Inhabited Hit := ⟨⟨0, 0⟩⟩

/-- The dot product of the query against row `i` of the `[N*dim]` embedding
matrix (`for j in [0, dim): s += query[j] * matrix[i*dim + j]`).  Reads are
in bounds for every row of a well-formed artifact; an out-of-bounds read
(which is `NaN` in JS) is modelled as `0`. -/
def dotAt (query matrix : List ℚ) (dim i : ℕ) : ℚ :=
  (List.range dim).foldl (fun s j => s + query.getD j 0 * matrix.getD (i * dim + j) 0) 0

/-- One iteration of the `topKCosine` scan.  While the accumulator has room
the row is pushed (and the accumulator is sorted exactly when it reaches
size `k`); afterwards a strictly better row replaces `acc[k-1]` and the
accumulator is re-sorted.  With `k ≤ 0` the source reads
`acc[k-1].score` with `acc[k-1] === undefined` and throws (`none`). -/
def topKStep (k : ℤ) (acc : List Hit) (e : Hit) : Option (List Hit) :=
  if (acc.length : ℤ) < k then
    let acc' := acc ++ [e]
    some (if (acc'.length : ℤ) = k then sortDescBy Hit.score acc' else acc')
  else if k ≤ 0 then
    none
  else if e.score > (acc.getD (k - 1).toNat ⟨0, 0⟩).score then
    some (sortDescBy Hit.score (acc.set (k - 1).toNat e))
  else
    some acc

/-- The `topKCosine` scan over the row indices. -/
def topKFold (k : ℤ) (score : ℕ → ℚ) : List ℕ → List Hit → Option (List Hit)
  | [], acc => some acc
  | i :: rest, acc =>
    match topKStep k acc ⟨i, score i⟩ with
    | some acc' => topKFold k score rest acc'
    | none => none

/-- `topKCosine` from `similarity.ts`.  `N = floor(matrix.length / dim)`;
with `dim = 0` the source loop never terminates (`N` is `Infinity`),
modelled as `none`. -/
def topKCosine (query matrix : List ℚ) (dim : ℕ) (k : ℤ) : Option (List Hit) :=
  if dim = 0 then none
  else topKFold k (fun i => dotAt query matrix dim i) (List.range (matrix.length / dim)) []

/-! ### Specification-side selection (from the spec's words, for C1):
compute all `N` scores, sort descending with ties kept in original corpus
order (first seen wins), take the first `min(k, N)` entries. -/

/-- The spec's ordering: strictly higher score first, equal scores in
corpus (index) order. -/
def hitBefore (a b : Hit) : Prop :=
  b.score < a.score ∨ (a.score = b.score ∧ a.index < b.index)

instance : DecidablePred fun p : Hit × Hit => hitBefore p.1 p.2 := by
  intro p; unfold hitBefore; infer_instance

instance (a b : Hit) : Decidable (hitBefore a b) := by
  unfold hitBefore; infer_instance

/-- Insertion into a list sorted by `hitBefore`. -/
def insertSpec (e : Hit) : List Hit → List Hit
  | [] => [e]
  | x :: xs => if hitBefore e x then e :: x :: xs else x :: insertSpec e xs

/-- Sort by `hitBefore` (descending score, ties by corpus order). -/
def sortSpec : List Hit → List Hit
  | [] => []
  | x :: xs => insertSpec x (sortSpec xs)

/-- Sort-then-truncate selection, as the spec words it. -/
def specTopKCosine (query matrix : List ℚ) (dim : ℕ) (k : ℤ) : List Hit :=
  let N := matrix.length / dim
  let scored := (List.range N).map (fun i => Hit.mk i (dotAt query matrix dim i))
  (sortSpec scored).take (min k (N : ℤ)).toNat

/-- **C1.** `topKCosine` does *not* agree with full-sort-then-truncate on
every input: when the corpus has fewer rows than `k` the accumulator never
reaches size `k`, so the sort inside the scan never runs and the rows come
back in corpus order rather than descending-score order.  At
`query = [1]`, `matrix = [1, 2]`, `dim = 1`, `k = 3` the code returns
`[(0, 1), (1, 2)]` while sort-then-truncate gives `[(1, 2), (0, 1)]`. -/
theorem C1_topKCosine_misses_final_sort :
    topKCosine [1] [1, 2] 1 3 = some [⟨0, 1⟩, ⟨1, 2⟩] ∧
    specTopKCosine [1] [1, 2] 1 3 = [⟨1, 2⟩, ⟨0, 1⟩] ∧
    topKCosine [1] [1, 2] 1 3 ≠ some (specTopKCosine [1] [1, 2] 1 3) := by
  refine ⟨by with_unfolding_all decide, by with_unfolding_all decide, by with_unfolding_all decide⟩

/-! ## Data model (`types.ts`) -/

/-- A corpus chunk (the richer `types.ts` variant used by the scorer and the
options-aware retriever).  `metaDomain` models `meta?.domain`: an absent
`meta` object and an absent `domain` field both read as `undefined`, hence a
single `Option`. -/
structure Chunk where
  id : Str
  doc_id : Str
  title : Str
  source : Str
  offset : ℤ
  text : Str
  metaDomain : Option Str
  deriving DecidableEq

instance : Inhabited Chunk := ⟨⟨[], [], [], [], 0, [], none⟩⟩

/-- `chunk.meta?.domain || ""`: the domain tag with `undefined` collapsed to
`""` (the `||` also sends an explicit empty tag to itself). -/
def domJS (c : Chunk) : Str := c.metaDomain.getD []

/-- A retrieved candidate: post-weighting `score`, optional raw cosine. -/
structure Retrieved where
  chunk : Chunk
  score : ℚ
  raw : Option ℚ
  deriving DecidableEq

instance : Inhabited Retrieved := ⟨⟨default, 0, none⟩⟩

/-! ## Scorer (`scorer.ts`) -/

/-- `applyDomainWeights(items, chunks, domainWeights?)`: map each
`{index, score}` to a `Retrieved` carrying `chunks[index]`, the weighted
score `score * (domainWeights?.[domain] ?? 1.0)` and the raw score.  An
out-of-range `index` makes the source read `meta` of `undefined` and throw
(`none`). -/
def applyDomainWeights (items : List Hit) (chunks : List Chunk)
    (dw : Option (List (Str × ℚ))) : Option (List Retrieved) :=
  match items with
  | [] => some []
  | h :: rest =>
    match chunks.get? h.index with
    | none => none
    | some c =>
      (applyDomainWeights rest chunks dw).map
        (fun l =>
          ⟨c, h.score * (dw.bind (fun m => mget m (strLower (domJS c)))).getD 1,
            some h.score⟩ :: l)

/-- The redundancy accumulation of `mmr`: for each already-selected `s`,
raise the running value to `0.5` on a shared `doc_id` and then to `0.3` on a
shared `title`. -/
def redundancy (selected : List Retrieved) (cand : Retrieved) : ℚ :=
  selected.foldl
    (fun r s =>
      let r1 := if s.chunk.doc_id = cand.chunk.doc_id then max r (1 / 2) else r
      if s.chunk.title = cand.chunk.title then max r1 (3 / 10) else r1)
    0

/-- The greedy objective of `mmr`. -/
def mmrScore (lam : ℚ) (selected : List Retrieved) (cand : Retrieved) : ℚ :=
  lam * cand.score - (1 - lam) * redundancy selected cand

/-- One comparison of the best-candidate scan of `mmr`
(`bestIdx = -1, bestScore = -Infinity` is the `none` state; the counter
mirrors the loop variable `p`). -/
def pickStep (lam : ℚ) (selected : List Retrieved)
    (st : ℕ × Option (ℕ × ℚ)) (c : Retrieved) : ℕ × Option (ℕ × ℚ) :=
  let sc := mmrScore lam selected c
  match st.2 with
  | none => (st.1 + 1, some (st.1, sc))
  | some (bi, bs) => (st.1 + 1, if sc > bs then some (st.1, sc) else some (bi, bs))

/-- The full best-candidate scan over the pool. -/
def pickFold (lam : ℚ) (selected : List Retrieved) (pool : List Retrieved) :
    ℕ × Option (ℕ × ℚ) :=
  pool.foldl (pickStep lam selected) (0, none)

/-- The `while` loop of `mmr`: move the scan winner from the pool to the
selection while the selection is short of `k` and the pool is nonempty.
Each iteration removes exactly one pool element, so running the loop with
`pool.length` fuel is exact (`mmrLoop_fuel_irrel` below makes this
formal). -/
def mmrLoop (lam : ℚ) (k : ℤ) : ℕ → List Retrieved → List Retrieved → List Retrieved
  | 0, selected, _ => selected
  | fuel + 1, selected, pool =>
    if (selected.length : ℤ) < k ∧ pool ≠ [] then
      match (pickFold lam selected pool).2 with
      | some (bi, _) =>
        mmrLoop lam k fuel (selected ++ [pool.getD bi default]) (pool.eraseIdx bi)
      | none => selected
    else selected

/-- `mmr` from `scorer.ts`.  The first three parameters are unused by the
source body (kept for signature fidelity); `lambda` defaults to `0.7` and
`k` to `5`. -/
def mmr (_queryVec : List ℚ) (_emb : List ℚ) (_dim : ℕ)
    (candidates : List Retrieved) (lam : ℚ := 7 / 10) (k : ℤ := 5) :
    List Retrieved :=
  mmrLoop lam k candidates.length [] candidates

/-! ## Options-aware retriever (`retriever.ts`, part_003 variant) -/

structure MmrOpts where
  lambda : Option ℚ
  fetchK : Option ℤ
  deriving DecidableEq

structure RetrievalOptions where
  k : Option ℤ
  domains : Option (List Str)
  domainWeights : Option (List (Str × ℚ))
  mmr : Option MmrOpts
  deriving DecidableEq

structure IndexJson where
  dim : ℕ
  chunk_count : ℕ
  doc_count : ℕ
  model : Str
  created_utc : ℤ
  domains : Option (List Str)
  chunks : List Chunk
  deriving DecidableEq

structure AppliedMmr where
  lambda : ℚ
  fetchK : ℤ
  deriving DecidableEq

structure Applied where
  domains : Option (List Str)
  domainWeights : Option (List (Str × ℚ))
  mmr : Option AppliedMmr
  deriving DecidableEq

structure RetrievalResult where
  query : Str
  topK : List Retrieved
  elapsedMs : ℚ
  applied : Applied
  deriving DecidableEq

/-- The domain filter of `retrieve`: keep a hit when the lowercased domain
tag of its chunk is in the lowercased allow-set; reading `chunks[index]` out
of range throws (`none`). -/
def filterDomains (chunks : List Chunk) (allow : List Str) :
    List Hit → Option (List Hit)
  | [] => some []
  | h :: rest =>
    match chunks.get? h.index with
    | none => none
    | some c =>
      (filterDomains chunks allow rest).map
        (fun l => if strLower (domJS c) ∈ allow then h :: l else l)

/-- `retrieve(query, opts)` from the options-aware retriever, after the two
awaits: `qEmbed` is the embedding of the query text delivered by the
external feature-extraction pipeline, `idx`/`emb` the loaded index artifact.
Wall-clock timing is not modelled (`elapsedMs = 0`). -/
def retrieve (sq : ℚ → ℚ) (idx : IndexJson) (emb : List ℚ) (query : Str)
    (qEmbed : List ℚ) (opts : RetrievalOptions) : Option RetrievalResult :=
  let k : ℤ := opts.k.getD 5
  let q := l2Normalize sq qEmbed
  let fetchK : ℤ := max (k * 4) ((opts.mmr.bind MmrOpts.fetchK).getD 40)
  (topKCosine q emb idx.dim fetchK).bind fun rawHits =>
    (match opts.domains with
      | some ds =>
        if ds ≠ [] then filterDomains idx.chunks (ds.map strLower) rawHits
        else some rawHits
      | none => some rawHits).bind fun filtered =>
      (applyDomainWeights filtered idx.chunks opts.domainWeights).map fun weighted =>
        let finalTopK : List Retrieved :=
          match opts.mmr with
          | some mo => mmr q emb idx.dim weighted (mo.lambda.getD (7 / 10)) k
          | none => jsSliceTo (sortDescBy Retrieved.score weighted) k
        { query := query
          topK := finalTopK
          elapsedMs := 0
          applied :=
            { domains := opts.domains
              domainWeights := opts.domainWeights
              mmr := opts.mmr.map (fun (mo : MmrOpts) => ⟨mo.lambda.getD (7 / 10), fetchK⟩) } }

/-! ## Prompt assembler (`augment.ts`) -/

/-- `Number.prototype.toFixed(3)`: three decimal digits (round to nearest,
rendered with padded fraction).  Only its output length ever matters to the
statements below. -/
def toFixed3 (q : ℚ) : Str :=
  let m : ℤ := round (q * 1000)
  let sgn : Str := if m < 0 then strL ("-") else []
  let a : ℕ := m.natAbs
  let frac : ℕ := a % 1000
  let pad : Str := if frac < 10 then strL ("00") else if frac < 100 then strL ("0") else []
  sgn ++ (Nat.repr (a / 1000)).toList ++ strL (".") ++ pad ++ (Nat.repr frac).toList

/-- The options record of `buildAugmentedPrompt` (`maxTokens` and
`charsPerToken` are integral configuration numbers). -/
structure BudgetOpts where
  maxTokens : ℤ
  charsPerToken : Option ℤ
  header : Option Str
  footer : Option Str

/-- One citation block: `### [title] (score=...)\ntext`. -/
def citeBlock (r : Retrieved) : Str :=
  strL ("### [") ++ r.chunk.title ++ strL ("] (score=") ++ toFixed3 r.score
    ++ strL (")") ++ strL ("\n") ++ r.chunk.text

/-- The template
`` `${header}\n\n${lines.join("\n\n")}\n\nUser question: ${q}\n${footer}`.trim() ``. -/
def assemblePrompt (header userQuery footer : Str) (lines : List Str) : Str :=
  jsTrim (header ++ strL ("\n\n") ++ List.intercalate (strL ("\n\n")) lines
    ++ strL ("\n\n") ++ strL ("User question: ") ++ userQuery ++ strL ("\n") ++ footer)

/-- The appended truncation marker of the hard-truncation branch. -/
def truncMarker : Str := strL ("\n...[truncated]")

/-- The bottom-up truncation loop of `buildAugmentedPrompt`: pop the last
block, re-assemble, return as soon as the candidate fits; with at most one
block left, hard-slice `base` to `maxChars - 20` characters and append the
marker.  One fuel unit per popped block (`fuel = lines.length` is exact:
each pass removes one line). -/
def dropLoop (assemble : List Str → Str) (maxChars : ℤ) (base : Str) :
    ℕ → List Str → Str
  | 0, _ => jsSliceTo base (maxChars - 20) ++ truncMarker
  | fuel + 1, lines =>
    if lines.length > 1 then
      let lines2 := lines.dropLast
      let candidate := assemble lines2
      if (candidate.length : ℤ) ≤ maxChars then candidate
      else dropLoop assemble maxChars base fuel lines2
    else jsSliceTo base (maxChars - 20) ++ truncMarker

/-- `buildAugmentedPrompt` from `augment.ts`. -/
def buildAugmentedPrompt (userQuery : Str) (retrieved : List Retrieved)
    (opts : BudgetOpts) : Str :=
  let charsPerToken := opts.charsPerToken.getD 4
  let maxChars := opts.maxTokens * charsPerToken
  let header := opts.header.getD
    (strL ("Use the following context to answer the question. Cite sources by title."))
  let footer := opts.footer.getD []
  let citeBlockLines := retrieved.map citeBlock
  let base := assemblePrompt header userQuery footer citeBlockLines
  if (base.length : ℤ) ≤ maxChars then base
  else dropLoop (assemblePrompt header userQuery footer) maxChars base
    citeBlockLines.length citeBlockLines

/-! ## Lexical TF-IDF engine (`rag.ts`, part_000) -/

structure Doc where
  id : Str
  title : Str
  source : Str
  text : Str
  deriving DecidableEq

instance : Inhabited Doc := ⟨⟨[], [], [], []⟩⟩

/-- Characters surviving the regex replace `[^a-z0-9\s] -> " "` (after
lowercasing): lowercase letters, digits and whitespace. -/
def keepChar (c : Char) : Bool :=
  (decide ('a' ≤ c) && decide (c ≤ 'z')) || (decide ('0' ≤ c) && decide (c ≤ '9')) || jsWS c

/-- `split(/\s+/).filter(Boolean)`: the maximal non-whitespace runs, in
order (a structural one-pass rendering of split-then-filter). -/
def words (s : Str) : List Str :=
  (s.foldr
    (fun c acc =>
      if jsWS c then [] :: acc
      else
        match acc with
        | [] => [[c]]
        | w :: rest => (c :: w) :: rest)
    []).filter (fun w => w ≠ [])

/-- `tokenize` from `rag.ts`: lowercase, replace non-alphanumerics by
spaces, split on whitespace, drop empties. -/
def tokenize (s : Str) : List Str :=
  words ((strLower s).map (fun c => if keepChar c then c else ' '))

/-- `tf`: term frequencies, in first-occurrence order. -/
def tf (tokens : List Str) : List (Str × ℚ) :=
  tokens.foldl (fun m t => mset m t (mgetD m t 0 + 1)) []

/-- `normalize` from `rag.ts`: divide every weight by `Math.sqrt(sum) || 1`
(the `|| 1` replaces a zero — falsy — norm by `1`). -/
def normalize (sq : ℚ → ℚ) (v : List (Str × ℚ)) : List (Str × ℚ) :=
  let sum := v.foldl (fun a p => a + p.2 * p.2) 0
  let norm := if sq sum = 0 then 1 else sq sum
  mofList (v.map (fun p => (p.1, p.2 / norm)))

/-- `cosine` from `rag.ts`: iterate the smaller map, accumulating products
of weights present (and truthy, i.e. nonzero) on both sides. -/
def cosine (a b : List (Str × ℚ)) : ℚ :=
  let sb := if a.length < b.length then (a, b) else (b, a)
  sb.1.foldl
    (fun s p =>
      match mget sb.2 p.1 with
      | some vb => if vb ≠ 0 then s + p.2 * vb else s
      | none => s)
    0

structure RagIndex where
  idf : List (Str × ℚ)
  docVecs : List (Str × List (Str × ℚ))
  byId : List (Str × Doc)
  deriving DecidableEq

/-- The per-document state of the first `buildIndex` loop. -/
structure BuildState where
  byId : List (Str × Doc)
  docTfs : List (Str × List (Str × ℚ))
  df : List (Str × ℚ)

/-- One iteration of the first `buildIndex` loop: record the document, its
term frequencies, and bump the document frequency of each distinct term. -/
def buildStep (st : BuildState) (d : Doc) : BuildState :=
  let tfi := tf (tokenize d.text)
  { byId := mset st.byId d.id d
    docTfs := mset st.docTfs d.id tfi
    df := (mkeys tfi).foldl (fun m k => mset m k (mgetD m k 0 + 1)) st.df }

/-- `buildIndex` from `rag.ts`.  `lg` models `Math.log`, `sq` models
`Math.sqrt`.  Note there is no emptiness check of any kind: the function is
total and an empty corpus yields the empty index. -/
def buildIndex (lg sq : ℚ → ℚ) (docs : List Doc) : RagIndex :=
  let st := docs.foldl buildStep ⟨[], [], []⟩
  let N : ℚ := docs.length
  let idf := st.df.foldl (fun m p => mset m p.1 (lg ((1 + N) / (1 + p.2)) + 1)) []
  let docVecs := st.docTfs.foldl
    (fun m p =>
      mset m p.1 (normalize sq (mofList (p.2.map (fun w => (w.1, w.2 * mgetD idf w.1 0))))))
    []
  ⟨idf, docVecs, st.byId⟩

/-- `queryVec` from `rag.ts`: term frequencies of the query times the
index IDF (an unknown term gets factor `0`), then `normalize`. -/
def queryVec (sq : ℚ → ℚ) (q : Str) (idf : List (Str × ℚ)) : List (Str × ℚ) :=
  let tfi := tf (tokenize q)
  normalize sq (mofList (tfi.map (fun p => (p.1, p.2 * mgetD idf p.1 0))))

structure ScoredDoc where
  doc : Doc
  score : ℚ
  deriving DecidableEq

instance : Inhabited ScoredDoc := ⟨⟨default, 0⟩⟩

/-- `topK` from `rag.ts` (`k` defaults to 3): score every document vector
against the query vector, stable-sort descending, `slice(0, k)`. -/
def topK (sq : ℚ → ℚ) (q : Str) (index : RagIndex) (k : ℤ := 3) :
    List ScoredDoc :=
  let qv := queryVec sq q index.idf
  let scored := index.docVecs.foldl
    (fun acc p => acc ++ [⟨mgetD index.byId p.1 default, cosine qv p.2⟩]) []
  jsSliceTo (sortDescBy ScoredDoc.score scored) k

/-! ## Map lemmas -/

theorem mem_mset {m : List (Str × α)} {k : Str} {v : α} {p : Str × α}
    (h : p ∈ mset m k v) : p ∈ m ∨ p = (k, v) := by
  induction m with
  | nil =>
    right
    simpa [mset] using h
  | cons q m ih =>
    obtain ⟨qk, qv⟩ := q
    simp only [mset] at h
    by_cases hq : qk = k
    · simp only [hq, if_pos, List.mem_cons] at h
      rcases h with h | h
      · right; exact h
      · left; exact List.mem_cons_of_mem _ h
    · simp only [hq, if_neg, not_false_iff, List.mem_cons] at h
      rcases h with h | h
      · left; exact h ▸ List.mem_cons_self _ _
      · rcases ih h with h2 | h2
        · left; exact List.mem_cons_of_mem _ h2
        · right; exact h2

theorem mget_mem : ∀ {m : List (Str × α)} {k : Str} {v : α},
    mget m k = some v → (k, v) ∈ m := by
  intro m
  induction m with
  | nil => intro k v h; simp [mget] at h
  | cons q m ih =>
    obtain ⟨qk, qv⟩ := q
    intro k v h
    simp only [mget] at h
    by_cases hq : qk = k
    · simp only [hq, if_pos] at h
      obtain rfl : qv = v := by injection h
      subst hq
      exact List.mem_cons_self _ _
    · simp only [hq, if_neg, not_false_iff] at h
      exact List.mem_cons_of_mem _ (ih h)

theorem mem_mofList_aux {p : Str × α} :
    ∀ (ps : List (Str × α)) (m : List (Str × α)),
      p ∈ ps.foldl (fun m q => mset m q.1 q.2) m → p ∈ m ∨ p ∈ ps := by
  intro ps
  induction ps with
  | nil => intro m h; exact Or.inl h
  | cons q ps ih =>
    intro m h
    rcases ih _ h with h2 | h2
    · rcases mem_mset h2 with h3 | h3
      · exact Or.inl h3
      · right
        rw [h3]
        exact List.mem_cons_self _ _
    · exact Or.inr (List.mem_cons_of_mem _ h2)

theorem mem_mofList {ps : List (Str × α)} {p : Str × α}
    (h : p ∈ mofList ps) : p ∈ ps := by
  rcases mem_mofList_aux ps [] h with h2 | h2
  · simp at h2
  · exact h2

theorem tf_key_mem_aux {p : Str × ℚ} :
    ∀ (ts : List Str) (m : List (Str × ℚ)),
      p ∈ ts.foldl (fun m t => mset m t (mgetD m t 0 + 1)) m → p ∈ m ∨ p.1 ∈ ts := by
  intro ts
  induction ts with
  | nil => intro m h; exact Or.inl h
  | cons t ts ih =>
    intro m h
    rcases ih _ h with h2 | h2
    · rcases mem_mset h2 with h3 | h3
      · exact Or.inl h3
      · right
        rw [h3]
        exact List.mem_cons_self _ _
    · exact Or.inr (List.mem_cons_of_mem _ h2)

/-- Every entry of a `tf` table is keyed by one of the tokens. -/
theorem tf_key_mem {ts : List Str} {p : Str × ℚ} (h : p ∈ tf ts) : p.1 ∈ ts := by
  rcases tf_key_mem_aux ts [] h with h2 | h2
  · simp at h2
  · exact h2

/-! ## Zero-vector lemmas (towards C10) -/

theorem foldl_sq_zero {v : List ℚ} (hv : ∀ x ∈ v, x = 0) :
    ∀ a : ℚ, v.foldl (fun a x => a + x * x) a = a := by
  induction v with
  | nil => intro a; rfl
  | cons x v ih =>
    intro a
    have hx : x = 0 := hv x (List.mem_cons_self _ _)
    have h2 : ∀ y ∈ v, y = 0 := fun y hy => hv y (List.mem_cons_of_mem _ hy)
    simp only [List.foldl_cons, hx, mul_zero, add_zero]
    exact ih h2 a

theorem foldl_pair_sq_zero {w : List (Str × ℚ)} (hw : ∀ p ∈ w, p.2 = 0) :
    ∀ a : ℚ, w.foldl (fun a p => a + p.2 * p.2) a = a := by
  induction w with
  | nil => intro a; rfl
  | cons p w ih =>
    intro a
    have hp : p.2 = 0 := hw p (List.mem_cons_self _ _)
    have h2 : ∀ q ∈ w, q.2 = 0 := fun q hq => hw q (List.mem_cons_of_mem _ hq)
    simp only [List.foldl_cons, hp, mul_zero, add_zero]
    exact ih h2 a

/-- `normalize` sends a vector of all-zero weights to all-zero weights
(provided the modelled `Math.sqrt` sends `0` to `0`). -/
theorem normalize_zero {sq : ℚ → ℚ} (hsq : sq 0 = 0) {w : List (Str × ℚ)}
    (hw : ∀ p ∈ w, p.2 = 0) : ∀ p ∈ normalize sq w, p.2 = 0 := by
  intro p hp
  simp only [normalize] at hp
  rw [foldl_pair_sq_zero hw 0, hsq] at hp
  simp only [if_pos, eq_self_iff_true, if_true, div_one] at hp
  have hm := mem_mofList hp
  rcases List.mem_map.1 hm with ⟨q, hq, rfl⟩
  simp [hw q hq]

/-- All weights of a lexical query vector over terms unknown to the IDF
table are zero. -/
theorem queryVec_zero {sq : ℚ → ℚ} (hsq : sq 0 = 0) {idf : List (Str × ℚ)}
    {q : Str} (hq : ∀ t ∈ tokenize q, mget idf t = none) :
    ∀ p ∈ queryVec sq q idf, p.2 = 0 := by
  unfold queryVec
  refine normalize_zero hsq ?_
  intro p hp
  have hm := mem_mofList hp
  rcases List.mem_map.1 hm with ⟨r, hr, rfl⟩
  have hk : r.1 ∈ tokenize q := tf_key_mem hr
  simp [mgetD, hq r.1 hk]

theorem cosine_zero_left {a b : List (Str × ℚ)} (ha : ∀ p ∈ a, p.2 = 0) :
    ∀ init : ℚ,
      a.foldl
        (fun s p =>
          match mget b p.1 with
          | some vb => if vb ≠ 0 then s + p.2 * vb else s
          | none => s)
        init = init := by
  induction a with
  | nil => intro init; rfl
  | cons p a ih =>
    intro init
    have hp : p.2 = 0 := ha p (List.mem_cons_self _ _)
    have h2 : ∀ q ∈ a, q.2 = 0 := fun q hq => ha q (List.mem_cons_of_mem _ hq)
    simp only [List.foldl_cons]
    have hstep :
        (match mget b p.1 with
          | some vb => if vb ≠ 0 then init + p.2 * vb else init
          | none => init) = init := by
      cases hm : mget b p.1 with
      | none => rfl
      | some vb =>
        simp [hp]
    rw [hstep]
    exact ih h2 init

theorem cosine_zero_right {a b : List (Str × ℚ)} (hb : ∀ p ∈ b, p.2 = 0) :
    ∀ init : ℚ,
      a.foldl
        (fun s p =>
          match mget b p.1 with
          | some vb => if vb ≠ 0 then s + p.2 * vb else s
          | none => s)
        init = init := by
  induction a with
  | nil => intro init; rfl
  | cons p a ih =>
    intro init
    simp only [List.foldl_cons]
    have hstep :
        (match mget b p.1 with
          | some vb => if vb ≠ 0 then init + p.2 * vb else init
          | none => init) = init := by
      cases hm : mget b p.1 with
      | none => rfl
      | some vb =>
        have hvb : vb = 0 := hb (p.1, vb) (mget_mem hm)
        simp [hvb]
    rw [hstep]
    exact ih init

/-- `cosine` against an all-zero vector on the left argument is `0`,
whichever of the two maps the source chooses to iterate. -/
theorem cosine_of_zero {a b : List (Str × ℚ)} (ha : ∀ p ∈ a, p.2 = 0) :
    cosine a b = 0 := by
  unfold cosine
  by_cases hl : a.length < b.length
  · simp only [hl, if_pos]
    exact cosine_zero_left ha 0
  · simp only [hl, if_neg, not_false_iff]
    exact cosine_zero_right ha 0

theorem jsSliceTo_nil (e : ℤ) : jsSliceTo ([] : List α) e = [] := by
  unfold jsSliceTo
  split <;> simp

/-- **C10.**  Normalization is total on the zero vector: the dense
`l2Normalize` maps an all-zero vector to itself (the division is guarded by
`s > 0`, the zero norm makes the multiplier `0`), the sparse `normalize`
maps all-zero weights to all-zero weights (the `|| 1` guard replaces the
zero norm by `1`), and consequently a query made only of terms unknown to
the IDF table has an all-zero query vector and scores exactly `0` against
every document vector.  `sq` models `Math.sqrt` (so `sq 0 = 0`). -/
theorem C10_zero_vector_normalization_total
    (sq : ℚ → ℚ) (hsq : sq 0 = 0)
    (v : List ℚ) (hv : ∀ x ∈ v, x = 0)
    (w : List (Str × ℚ)) (hw : ∀ p ∈ w, p.2 = 0)
    (idf : List (Str × ℚ)) (q : Str) (dv : List (Str × ℚ))
    (hq : ∀ t ∈ tokenize q, mget idf t = none) :
    l2Normalize sq v = v ∧
    (∀ p ∈ normalize sq w, p.2 = 0) ∧
    cosine (queryVec sq q idf) dv = 0 := by
  refine ⟨?_, normalize_zero hsq hw, cosine_of_zero (queryVec_zero hsq hq)⟩
  simp only [l2Normalize]
  rw [foldl_sq_zero hv 0]
  rw [if_neg (lt_irrefl (0 : ℚ))]
  conv_rhs => rw [← List.map_id v]
  refine List.map_congr_left ?_
  intro x hx
  rw [hv x hx, mul_zero]
  rfl

theorem C10_witness :
    ((fun _ : ℚ => (0 : ℚ)) 0 = 0) ∧
    (∀ x ∈ [(0 : ℚ), 0], x = 0) ∧
    (∀ p ∈ [(strL ("a"), (0 : ℚ))], p.2 = 0) ∧
    (∀ t ∈ tokenize (strL ("x")), mget ([] : List (Str × ℚ)) t = none) ∧
    (l2Normalize (fun _ => 0) [0, 0] = [0, 0] ∧
      (∀ p ∈ normalize (fun _ => 0) [(strL ("a"), 0)], p.2 = 0) ∧
      cosine (queryVec (fun _ => 0) (strL ("x")) []) [(strL ("x"), 1)] = 0) :=
  ⟨rfl, by with_unfolding_all decide, by with_unfolding_all decide,
    by with_unfolding_all decide,
    C10_zero_vector_normalization_total (fun _ => 0) rfl [0, 0]
      (by with_unfolding_all decide) [(strL ("a"), 0)] (by with_unfolding_all decide)
      [] (strL ("x")) [(strL ("x"), 1)] (by with_unfolding_all decide)⟩

/-- **C3** (counterexample to the claim as stated): index construction on
zero documents does not fail at build time — no `EmptyCorpusError` exists
anywhere in the source — it returns the empty index, and the first query
quietly returns no results. -/
theorem C3_counterexample :
    buildIndex (fun _ => 0) (fun _ => 0) [] = ⟨[], [], []⟩ ∧
    topK (fun _ => 0) (strL ("train")) (buildIndex (fun _ => 0) (fun _ => 0) []) 3 = [] := by
  exact ⟨rfl, by with_unfolding_all decide⟩

/-- **C3** (amended).  `buildIndex` applied to the empty document list
succeeds silently, returning the empty index (empty IDF table, no document
vectors, no id map) for every modelled `Math.log`/`Math.sqrt`; `topK` on
the resulting index returns the empty list for every query and every `k`,
so the failure is deferred past build time and never surfaces at all. -/
theorem C3_empty_corpus_silent_success (lg sq : ℚ → ℚ) (q : Str) (k : ℤ) :
    buildIndex lg sq [] = ⟨[], [], []⟩ ∧
    topK sq q (buildIndex lg sq []) k = [] := by
  refine ⟨rfl, ?_⟩
  have h1 : buildIndex lg sq [] = ⟨[], [], []⟩ := rfl
  rw [h1]
  simp [topK, sortDescBy, jsSliceTo_nil]

/-- **C8.**  `applyDomainWeights` succeeds on every candidate list whose
indices refer into the chunk list, and maps the `i`-th `{index, score}`
pointwise to the record carrying `chunks[index]`, the weighted score
`score * (domainWeights?.[lowercased domain] ?? 1.0)` (so exactly `1.0`
when the map is absent or lacks the domain), and the untouched raw
score. -/
theorem C8_applyDomainWeights_spec (chunks : List Chunk)
    (dw : Option (List (Str × ℚ))) :
    ∀ items : List Hit, (∀ h ∈ items, h.index < chunks.length) →
      ∃ l, applyDomainWeights items chunks dw = some l ∧
        l.length = items.length ∧
        ∀ i, i < items.length →
          ∃ c, chunks.get? (items.getD i default).index = some c ∧
            l.getD i default =
              ⟨c,
                (items.getD i default).score *
                  ((dw.bind fun m => mget m (strLower (domJS c))).getD 1),
                some (items.getD i default).score⟩ := by
  intro items
  induction items with
  | nil =>
    intro _
    refine ⟨[], rfl, rfl, ?_⟩
    intro i hi
    exact absurd hi (by simp)
  | cons h rest ih =>
    intro hb
    have hh : h.index < chunks.length := hb h (List.mem_cons_self _ _)
    have hrest : ∀ x ∈ rest, x.index < chunks.length :=
      fun x hx => hb x (List.mem_cons_of_mem _ hx)
    obtain ⟨l, hl, hlen, hpt⟩ := ih hrest
    cases hc : chunks.get? h.index with
    | none =>
      exact absurd hh (by simpa using List.get?_eq_none.mp hc)
    | some c =>
      refine ⟨⟨c, h.score * ((dw.bind fun m => mget m (strLower (domJS c))).getD 1),
        some h.score⟩ :: l, ?_, ?_, ?_⟩
      · simp only [applyDomainWeights, hc, hl]
        rfl
      · simp [hlen]
      · intro i hi
        cases i with
        | zero =>
          exact ⟨c, by simpa using hc, rfl⟩
        | succ j =>
          have hj : j < rest.length := by simpa using hi
          simpa using hpt j hj

theorem C8_witness :
    (∀ h ∈ [Hit.mk 0 3],
      h.index < [Chunk.mk (strL ("c1")) (strL ("d1")) (strL ("t1")) [] 0 []
        (some (strL ("Rail")))].length) ∧
    ∃ l,
      applyDomainWeights [Hit.mk 0 3]
          [Chunk.mk (strL ("c1")) (strL ("d1")) (strL ("t1")) [] 0 []
            (some (strL ("Rail")))]
          (some [(strL ("rail"), 2)]) = some l ∧
        l.length = [Hit.mk 0 3].length ∧
        ∀ i, i < [Hit.mk 0 3].length →
          ∃ c,
            [Chunk.mk (strL ("c1")) (strL ("d1")) (strL ("t1")) [] 0 []
              (some (strL ("Rail")))].get?
                (([Hit.mk 0 3].getD i default).index) = some c ∧
            l.getD i default =
              ⟨c,
                ([Hit.mk 0 3].getD i default).score *
                  (((some [(strL ("rail"), 2)]).bind fun m =>
                    mget m (strLower (domJS c))).getD 1),
                some ([Hit.mk 0 3].getD i default).score⟩ :=
  ⟨by with_unfolding_all decide,
    C8_applyDomainWeights_spec _ _ _ (by with_unfolding_all decide)⟩

/-! ## Prompt-assembler budget lemmas (C2) -/

theorem length_jsSliceTo_le (l : List α) (e : ℤ) (he : 0 ≤ e) :
    ((jsSliceTo l e).length : ℤ) ≤ e := by
  unfold jsSliceTo
  rw [if_neg (not_lt.mpr he)]
  have h1 : (l.take e.toNat).length ≤ e.toNat := by
    simp [List.length_take]
  calc ((l.take e.toNat).length : ℤ) ≤ (e.toNat : ℤ) := by exact_mod_cast h1
    _ = e := Int.toNat_of_nonneg he

theorem truncMarker_length : truncMarker.length = 15 := by decide

/-- The hard-truncation fallback fits the budget whenever the budget leaves
room for the 20-character slack it reserves (the marker itself is only 15
characters long). -/
theorem hardSlice_length_le (base : Str) (maxChars : ℤ) (hm : 20 ≤ maxChars) :
    ((jsSliceTo base (maxChars - 20) ++ truncMarker).length : ℤ) ≤ maxChars := by
  rw [List.length_append]
  have h1 : ((jsSliceTo base (maxChars - 20)).length : ℤ) ≤ maxChars - 20 :=
    length_jsSliceTo_le _ _ (by omega)
  have h2 : truncMarker.length = 15 := truncMarker_length
  push_cast
  omega

theorem dropLoop_length_le (asm : List Str → Str) (maxChars : ℤ) (base : Str)
    (hm : 20 ≤ maxChars) :
    ∀ (fuel : ℕ) (lines : List Str),
      ((dropLoop asm maxChars base fuel lines).length : ℤ) ≤ maxChars := by
  intro fuel
  induction fuel with
  | zero =>
    intro lines
    simp only [dropLoop]
    exact hardSlice_length_le base maxChars hm
  | succ fuel ih =>
    intro lines
    simp only [dropLoop]
    split
    · split
      · next h2 => exact h2
      · exact ih _
    · exact hardSlice_length_le base maxChars hm

/-- **C2** (amended).  For every query, every list of retrieved candidates
and every budget record whose character budget
`maxTokens * (charsPerToken ?? 4)` is at least the 20-character slack the
hard-truncation branch reserves, the assembled prompt has character length
at most the budget — the truncation-marker overhead included, since the
marker (15 chars) is shorter than the reserved slack.  (Without that
proviso the bound fails: see the counterexample.) -/
theorem C2_prompt_length_within_budget (userQuery : Str)
    (retrieved : List Retrieved) (opts : BudgetOpts)
    (hbudget : 20 ≤ opts.maxTokens * opts.charsPerToken.getD 4) :
    ((buildAugmentedPrompt userQuery retrieved opts).length : ℤ) ≤
      opts.maxTokens * opts.charsPerToken.getD 4 := by
  simp only [buildAugmentedPrompt]
  split
  · next h => exact h
  · exact dropLoop_length_le _ _ _ hbudget _ _

/-- **C2** (counterexample to the claim as stated): with
`maxTokens = 0` (budget `0 * 4 = 0` characters) and no retrieved
candidates, the hard-truncation branch computes `base.slice(0, -20)`, and a
negative end offset counts from the *end* of the string, so nearly the
whole base survives: the output is far longer than budget plus marker. -/
theorem C2_counterexample :
    (0 : ℤ) * ((none : Option ℤ).getD 4) = 0 ∧
    ((buildAugmentedPrompt (strL ("hello")) [] ⟨0, none, none, none⟩).length : ℤ) >
      0 + (truncMarker.length : ℤ) :=
  ⟨rfl, by with_unfolding_all decide⟩

theorem C2_witness :
    (20 ≤ (10 : ℤ) * ((none : Option ℤ).getD 4)) ∧
    ((buildAugmentedPrompt (strL ("hi")) [] ⟨10, none, none, none⟩).length : ℤ) ≤
      (10 : ℤ) * ((none : Option ℤ).getD 4) :=
  ⟨by decide, C2_prompt_length_within_budget (strL ("hi")) [] ⟨10, none, none, none⟩ (by decide)⟩

/-! ## MMR scan lemmas -/

theorem pickStep_fst (lam : ℚ) (sel : List Retrieved)
    (st : ℕ × Option (ℕ × ℚ)) (c : Retrieved) :
    (pickStep lam sel st c).1 = st.1 + 1 := by
  rcases st with ⟨i, b⟩
  cases b with
  | none => rfl
  | some p => rcases p with ⟨bi, bs⟩; rfl

theorem pickFold_counter (lam : ℚ) (sel : List Retrieved) :
    ∀ (pool : List Retrieved) (st : ℕ × Option (ℕ × ℚ)),
      (pool.foldl (pickStep lam sel) st).1 = st.1 + pool.length := by
  intro pool
  induction pool with
  | nil => intro st; simp
  | cons c rest ih =>
    intro st
    simp only [List.foldl_cons]
    rw [ih, pickStep_fst]
    simp only [List.length_cons]
    omega

theorem pickFold_idx_lt_counter (lam : ℚ) (sel : List Retrieved) :
    ∀ (pool : List Retrieved) (st : ℕ × Option (ℕ × ℚ)),
      (∀ bi bs, st.2 = some (bi, bs) → bi < st.1) →
      ∀ bi bs, (pool.foldl (pickStep lam sel) st).2 = some (bi, bs) →
        bi < (pool.foldl (pickStep lam sel) st).1 := by
  intro pool
  induction pool with
  | nil => intro st h bi bs hs; exact h bi bs hs
  | cons c rest ih =>
    intro st h
    simp only [List.foldl_cons]
    refine ih _ ?_
    rcases st with ⟨i, b⟩
    cases b with
    | none =>
      intro bi bs hs
      have hfst : (pickStep lam sel (i, none) c).1 = i + 1 := pickStep_fst lam sel _ c
      simp only [pickStep] at hs
      injection hs with h1
      injection h1 with ha hb
      rw [hfst, ← ha]
      omega
    | some p =>
      rcases p with ⟨bi0, bs0⟩
      intro bi bs hs
      have hb0 : bi0 < i := h bi0 bs0 rfl
      have hfst : (pickStep lam sel (i, some (bi0, bs0)) c).1 = i + 1 :=
        pickStep_fst lam sel _ c
      rw [hfst]
      simp only [pickStep] at hs
      split at hs <;>
        (injection hs with h1; injection h1 with ha hb; rw [← ha]; omega)

theorem pickFold_keeps_some (lam : ℚ) (sel : List Retrieved) :
    ∀ (pool : List Retrieved) (st : ℕ × Option (ℕ × ℚ)),
      st.2.isSome → (pool.foldl (pickStep lam sel) st).2.isSome := by
  intro pool
  induction pool with
  | nil => intro st h; exact h
  | cons c rest ih =>
    intro st h
    simp only [List.foldl_cons]
    refine ih _ ?_
    rcases st with ⟨i, b⟩
    cases b with
    | none => simp at h
    | some p =>
      rcases p with ⟨bi0, bs0⟩
      simp only [pickStep]
      split <;> simp

/-- On a nonempty pool the best-candidate scan always yields an in-range
winner index. -/
theorem pickFold_some (lam : ℚ) (sel pool : List Retrieved) (hne : pool ≠ []) :
    ∃ bi bs, (pickFold lam sel pool).2 = some (bi, bs) ∧ bi < pool.length := by
  rcases pool with _ | ⟨c, rest⟩
  · exact absurd rfl hne
  · have hstep : pickStep lam sel (0, none) c = (1, some (0, mmrScore lam sel c)) := rfl
    have hsome : ((c :: rest).foldl (pickStep lam sel) (0, none)).2.isSome := by
      simp only [List.foldl_cons, hstep]
      exact pickFold_keeps_some lam sel rest _ (by simp)
    obtain ⟨⟨bi, bs⟩, hp⟩ := Option.isSome_iff_exists.mp hsome
    refine ⟨bi, bs, hp, ?_⟩
    have hlt : bi < ((c :: rest).foldl (pickStep lam sel) (0, none)).1 := by
      refine pickFold_idx_lt_counter lam sel (c :: rest) (0, none) ?_ bi bs hp
      intro bi0 bs0 h0
      simp at h0
    have hcnt : ((c :: rest).foldl (pickStep lam sel) (0, none)).1 = (c :: rest).length :=
      by simpa using pickFold_counter lam sel (c :: rest) (0, none)
    rw [hcnt] at hlt
    exact hlt

theorem perm_getD_cons_eraseIdx (d : α) :
    ∀ (l : List α) (i : ℕ), i < l.length →
      List.Perm l (l.getD i d :: l.eraseIdx i) := by
  intro l
  induction l with
  | nil => intro i hi; simp at hi
  | cons a t ih =>
    intro i hi
    cases i with
    | zero => simp [List.eraseIdx]
    | succ j =>
      have hj : j < t.length := by simpa using hi
      have h2 := ih j hj
      have h3 : List.Perm (a :: t) (a :: (t.getD j d :: t.eraseIdx j)) :=
        List.Perm.cons a h2
      exact h3.trans (List.Perm.swap (t.getD j d) a (t.eraseIdx j))

/-- The MMR loop moves elements from the pool into the selection: its output
plus a remainder is a permutation of `selected ++ pool`. -/
theorem mmrLoop_perm (lam : ℚ) (k : ℤ) :
    ∀ (fuel : ℕ) (sel pool : List Retrieved), pool.length ≤ fuel →
      ∃ rest, List.Perm (mmrLoop lam k fuel sel pool ++ rest) (sel ++ pool) := by
  intro fuel
  induction fuel with
  | zero =>
    intro sel pool hf
    have hp : pool = [] := List.length_eq_zero.mp (Nat.le_zero.mp hf)
    subst hp
    exact ⟨[], by simp [mmrLoop]⟩
  | succ fuel ih =>
    intro sel pool hf
    simp only [mmrLoop]
    split
    · next hguard =>
      obtain ⟨bi, bs, hsome, hlt⟩ := pickFold_some lam sel pool hguard.2
      rw [hsome]
      have herase : (pool.eraseIdx bi).length ≤ fuel := by
        rw [List.length_eraseIdx]
        simp only [hlt, if_pos]
        omega
      obtain ⟨rest, hperm⟩ := ih (sel ++ [pool.getD bi default]) (pool.eraseIdx bi) herase
      refine ⟨rest, hperm.trans ?_⟩
      rw [List.append_assoc]
      refine List.Perm.append_left sel ?_
      simpa using (perm_getD_cons_eraseIdx default pool bi hlt).symm
    · exact ⟨pool, List.Perm.refl _⟩

/-- The MMR loop output length: `min k (selected + pool)` while the
selection is within budget. -/
theorem mmrLoop_length (lam : ℚ) (k : ℤ) (hk : 0 ≤ k) :
    ∀ (fuel : ℕ) (sel pool : List Retrieved), pool.length ≤ fuel →
      sel.length ≤ k.toNat →
      (mmrLoop lam k fuel sel pool).length = min k.toNat (sel.length + pool.length) := by
  intro fuel
  induction fuel with
  | zero =>
    intro sel pool hf hsel
    have hp : pool = [] := List.length_eq_zero.mp (Nat.le_zero.mp hf)
    subst hp
    simp only [mmrLoop, List.length_nil, Nat.add_zero]
    omega
  | succ fuel ih =>
    intro sel pool hf hsel
    simp only [mmrLoop]
    split
    · next hguard =>
      obtain ⟨bi, bs, hsome, hlt⟩ := pickFold_some lam sel pool hguard.2
      rw [hsome]
      have herase : (pool.eraseIdx bi).length ≤ fuel := by
        rw [List.length_eraseIdx]
        simp only [hlt, if_pos]
        omega
      have hsel2 : (sel ++ [pool.getD bi default]).length ≤ k.toNat := by
        have h1 : (sel.length : ℤ) < k := hguard.1
        simp only [List.length_append, List.length_cons, List.length_nil]
        omega
      rw [ih _ _ herase hsel2]
      have hple : 1 ≤ pool.length := by
        rcases pool with _ | _
        · exact absurd rfl hguard.2
        · simp
      rw [List.length_eraseIdx]
      simp only [hlt, if_pos, List.length_append, List.length_cons, List.length_nil]
      omega
    · next hguard =>
      rw [not_and_or] at hguard
      rcases hguard with h1 | h2
      · have : k ≤ (sel.length : ℤ) := le_of_not_lt h1
        omega
      · have hp : pool = [] := by
          by_contra hc
          exact h2 hc
        subst hp
        simp only [List.length_nil, Nat.add_zero]
        omega

/-- **C6** (amended).  For every candidate pool whose entries carry
pairwise-distinct chunk ids and every `k ≥ 0`, `mmr` returns a list with no
duplicate chunk ids of length exactly `min k (pool length)`; when the pool
is smaller than `k` it returns the whole pool's worth of entries, never
padding and never erring.  (Distinctness of the incoming ids is necessary:
see the counterexample, where a pool repeating one entry makes `mmr` return
a duplicated id.) -/
theorem C6_mmr_nodup_and_length (qv e : List ℚ) (dim : ℕ)
    (pool : List Retrieved) (lam : ℚ) (k : ℕ)
    (hids : (pool.map fun r => r.chunk.id).Nodup) :
    ((mmr qv e dim pool lam (k : ℤ)).map fun r => r.chunk.id).Nodup ∧
    (mmr qv e dim pool lam (k : ℤ)).length = min k pool.length := by
  constructor
  · obtain ⟨rest, hperm⟩ := mmrLoop_perm lam (k : ℤ) pool.length [] pool le_rfl
    have hmap := hperm.map (fun r => r.chunk.id)
    rw [List.map_append] at hmap
    have hnd :
        ((mmrLoop lam (k : ℤ) pool.length [] pool).map (fun r => r.chunk.id) ++
          rest.map (fun r => r.chunk.id)).Nodup := by
      refine hmap.nodup_iff.mpr ?_
      simpa using hids
    exact hnd.of_append_left
  · have h := mmrLoop_length lam (k : ℤ) (by omega) pool.length [] pool le_rfl (by simp)
    have htn : (k : ℤ).toNat = k := Int.toNat_natCast k
    simpa [mmr, htn] using h

/-- **C6** (counterexample to the claim as stated): on a pool that repeats
one candidate, `mmr` happily selects the same chunk id twice — the claim's
"no duplicate chunk ids for every candidate pool" fails without a
distinctness premise on the pool itself. -/
theorem C6_counterexample :
    (mmr [] [] 0
        [⟨⟨strL ("c"), strL ("d"), strL ("t"), [], 0, [], none⟩, 1, none⟩,
         ⟨⟨strL ("c"), strL ("d"), strL ("t"), [], 0, [], none⟩, 1, none⟩]).map
      (fun r => r.chunk.id) = [strL ("c"), strL ("c")] ∧
    ¬ ((mmr [] [] 0
        [⟨⟨strL ("c"), strL ("d"), strL ("t"), [], 0, [], none⟩, 1, none⟩,
         ⟨⟨strL ("c"), strL ("d"), strL ("t"), [], 0, [], none⟩, 1, none⟩]).map
      (fun r => r.chunk.id)).Nodup :=
  ⟨by with_unfolding_all decide, by with_unfolding_all decide⟩

theorem C6_witness :
    (([⟨⟨strL ("c1"), strL ("d"), strL ("t"), [], 0, [], none⟩, 1, none⟩,
       ⟨⟨strL ("c2"), strL ("d"), strL ("t"), [], 0, [], none⟩, 2, none⟩] :
        List Retrieved).map (fun r => r.chunk.id)).Nodup ∧
    (((mmr [] [] 0
        [⟨⟨strL ("c1"), strL ("d"), strL ("t"), [], 0, [], none⟩, 1, none⟩,
         ⟨⟨strL ("c2"), strL ("d"), strL ("t"), [], 0, [], none⟩, 2, none⟩]
        (7 / 10) ((1 : ℕ) : ℤ)).map fun r => r.chunk.id).Nodup ∧
      (mmr [] [] 0
        [⟨⟨strL ("c1"), strL ("d"), strL ("t"), [], 0, [], none⟩, 1, none⟩,
         ⟨⟨strL ("c2"), strL ("d"), strL ("t"), [], 0, [], none⟩, 2, none⟩]
        (7 / 10) ((1 : ℕ) : ℤ)).length = min 1 2) :=
  ⟨by with_unfolding_all decide,
    C6_mmr_nodup_and_length [] [] 0
      [⟨⟨strL ("c1"), strL ("d"), strL ("t"), [], 0, [], none⟩, 1, none⟩,
       ⟨⟨strL ("c2"), strL ("d"), strL ("t"), [], 0, [], none⟩, 2, none⟩]
      (7 / 10) 1 (by with_unfolding_all decide)⟩

/-! ## Retrieval-pipeline lemmas (towards C5, C9) -/

theorem topKStep_some (k : ℤ) (hk : 1 ≤ k) (acc : List Hit) (e : Hit) :
    ∃ acc2, topKStep k acc e = some acc2 := by
  unfold topKStep
  split
  · exact ⟨_, rfl⟩
  · rw [if_neg (by omega : ¬ k ≤ 0)]
    split
    · exact ⟨_, rfl⟩
    · exact ⟨_, rfl⟩

theorem topKStep_mem {k : ℤ} {acc acc2 : List Hit} {e : Hit}
    (hs : topKStep k acc e = some acc2) :
    ∀ h ∈ acc2, h ∈ acc ∨ h = e := by
  intro h hmem
  unfold topKStep at hs
  split at hs
  · injection hs with hs1
    subst hs1
    split at hmem
    · rcases (mem_sortDescBy.mp hmem : h ∈ acc ++ [e]) with hm
      rcases List.mem_append.mp hm with hm2 | hm2
      · exact Or.inl hm2
      · right; simpa using hm2
    · rcases List.mem_append.mp hmem with hm2 | hm2
      · exact Or.inl hm2
      · right; simpa using hm2
  · split at hs
    · exact absurd hs (by simp)
    · split at hs
      · injection hs with hs1
        subst hs1
        have hm : h ∈ acc.set (k - 1).toNat e := mem_sortDescBy.mp hmem
        exact List.mem_or_eq_of_mem_set hm
      · injection hs with hs1
        subst hs1
        exact Or.inl hmem

theorem topKFold_some_of (P : Hit → Prop) (k : ℤ) (hk : 1 ≤ k) (score : ℕ → ℚ) :
    ∀ (is : List ℕ) (acc : List Hit),
      (∀ i ∈ is, P ⟨i, score i⟩) → (∀ h ∈ acc, P h) →
      ∃ out, topKFold k score is acc = some out ∧ ∀ h ∈ out, P h := by
  intro is
  induction is with
  | nil =>
    intro acc _ hacc
    exact ⟨acc, rfl, hacc⟩
  | cons i rest ih =>
    intro acc his hacc
    obtain ⟨acc2, hs⟩ := topKStep_some k hk acc ⟨i, score i⟩
    have hacc2 : ∀ h ∈ acc2, P h := by
      intro h hm
      rcases topKStep_mem hs h hm with hm2 | hm2
      · exact hacc h hm2
      · rw [hm2]
        exact his i (List.mem_cons_self _ _)
    obtain ⟨out, hout, hP⟩ :=
      ih acc2 (fun j hj => his j (List.mem_cons_of_mem _ hj)) hacc2
    refine ⟨out, ?_, hP⟩
    simp only [topKFold, hs]
    exact hout

/-- With a positive dimension and `k ≥ 1` the bounded scan always succeeds,
and every returned row index is within the corpus row count. -/
theorem topKCosine_some (query matrix : List ℚ) (dim : ℕ) (k : ℤ)
    (hdim : 0 < dim) (hk : 1 ≤ k) :
    ∃ out, topKCosine query matrix dim k = some out ∧
      ∀ h ∈ out, h.index < matrix.length / dim := by
  obtain ⟨out, hout, hP⟩ :=
    topKFold_some_of (fun h => h.index < matrix.length / dim) k hk
      (fun i => dotAt query matrix dim i) (List.range (matrix.length / dim)) []
      (fun i hi => List.mem_range.mp hi) (by simp)
  refine ⟨out, ?_, hP⟩
  unfold topKCosine
  rw [if_neg (Nat.pos_iff_ne_zero.mp hdim)]
  exact hout

theorem filterDomains_mem {chunks : List Chunk} {allow : List Str} :
    ∀ {hits out : List Hit}, filterDomains chunks allow hits = some out →
      ∀ h ∈ out, h ∈ hits ∧
        ∃ c, chunks.get? h.index = some c ∧ strLower (domJS c) ∈ allow := by
  intro hits
  induction hits with
  | nil =>
    intro out hout h hm
    simp only [filterDomains] at hout
    injection hout with h1
    subst h1
    simp at hm
  | cons x rest ih =>
    intro out hout h hm
    simp only [filterDomains] at hout
    cases hc : chunks.get? x.index with
    | none => rw [hc] at hout; exact absurd hout (by simp)
    | some c =>
      rw [hc] at hout
      rcases Option.map_eq_some'.mp hout with ⟨l, hl, hout2⟩
      subst hout2
      by_cases hin : strLower (domJS c) ∈ allow
      · rw [if_pos hin] at hm
        rcases List.mem_cons.mp hm with hm2 | hm2
        · subst hm2
          exact ⟨List.mem_cons_self _ _, c, hc, hin⟩
        · obtain ⟨hmem, hrest⟩ := ih hl h hm2
          exact ⟨List.mem_cons_of_mem _ hmem, hrest⟩
      · rw [if_neg hin] at hm
        obtain ⟨hmem, hrest⟩ := ih hl h hm
        exact ⟨List.mem_cons_of_mem _ hmem, hrest⟩

theorem filterDomains_some {chunks : List Chunk} {allow : List Str} :
    ∀ {hits : List Hit}, (∀ h ∈ hits, h.index < chunks.length) →
      ∃ out, filterDomains chunks allow hits = some out := by
  intro hits
  induction hits with
  | nil => intro _; exact ⟨[], rfl⟩
  | cons x rest ih =>
    intro hb
    have hx : x.index < chunks.length := hb x (List.mem_cons_self _ _)
    obtain ⟨out, hout⟩ := ih (fun h hm => hb h (List.mem_cons_of_mem _ hm))
    cases hc : chunks.get? x.index with
    | none => exact absurd hx (by simpa using List.get?_eq_none.mp hc)
    | some c =>
      refine ⟨if strLower (domJS c) ∈ allow then x :: out else out, ?_⟩
      simp only [filterDomains, hc, hout]
      rfl

theorem applyDomainWeights_mem {chunks : List Chunk}
    {dw : Option (List (Str × ℚ))} :
    ∀ {items : List Hit} {l : List Retrieved},
      applyDomainWeights items chunks dw = some l →
      ∀ r ∈ l, ∃ h, h ∈ items ∧ ∃ c, chunks.get? h.index = some c ∧ r.chunk = c := by
  intro items
  induction items with
  | nil =>
    intro l hl r hr
    simp only [applyDomainWeights] at hl
    injection hl with h1
    subst h1
    simp at hr
  | cons x rest ih =>
    intro l hl r hr
    simp only [applyDomainWeights] at hl
    cases hc : chunks.get? x.index with
    | none => rw [hc] at hl; exact absurd hl (by simp)
    | some c =>
      rw [hc] at hl
      rcases Option.map_eq_some'.mp hl with ⟨l2, hl2, hl3⟩
      subst hl3
      rcases List.mem_cons.mp hr with hr2 | hr2
      · subst hr2
        exact ⟨x, List.mem_cons_self _ _, c, hc, rfl⟩
      · obtain ⟨h, hm, hcx⟩ := ih hl2 r hr2
        exact ⟨h, List.mem_cons_of_mem _ hm, hcx⟩

theorem applyDomainWeights_some {chunks : List Chunk}
    (dw : Option (List (Str × ℚ))) :
    ∀ {items : List Hit}, (∀ h ∈ items, h.index < chunks.length) →
      ∃ l, applyDomainWeights items chunks dw = some l := by
  intro items hb
  obtain ⟨l, hl, -, -⟩ := C8_applyDomainWeights_spec chunks dw items hb
  exact ⟨l, hl⟩

/-- Everything the MMR stage returns comes from its candidate pool. -/
theorem mem_mmr {qv e : List ℚ} {dim : ℕ} {pool : List Retrieved}
    {lam : ℚ} {k : ℤ} {r : Retrieved}
    (hr : r ∈ mmr qv e dim pool lam k) : r ∈ pool := by
  obtain ⟨rest, hperm⟩ := mmrLoop_perm lam k pool.length [] pool le_rfl
  have : r ∈ mmrLoop lam k pool.length [] pool ++ rest :=
    List.mem_append.mpr (Or.inl hr)
  simpa using hperm.mem_iff.mp this

/-- **C5** (amended).  When a non-empty domain allow-list is supplied,
every candidate returned by `retrieve` carries a chunk whose domain tag is,
case-insensitively, one of the listed domains; and provided none of the
listed domains is the empty string, no returned chunk lacks a domain tag —
an untagged chunk reads as domain `""` and cannot match.  (Without that
proviso the exclusion fails: listing `""` itself admits untagged chunks,
see the counterexample.) -/
theorem C5_domain_filter_subset (sq : ℚ → ℚ) (idx : IndexJson) (emb : List ℚ)
    (query : Str) (qE : List ℚ) (opts : RetrievalOptions) (ds : List Str)
    (res : RetrievalResult)
    (hds : opts.domains = some ds) (hne : ds ≠ [])
    (hres : retrieve sq idx emb query qE opts = some res) :
    (∀ r ∈ res.topK, strLower (domJS r.chunk) ∈ ds.map strLower) ∧
    (([] : Str) ∉ ds.map strLower →
      ∀ r ∈ res.topK, r.chunk.metaDomain ≠ none ∧ domJS r.chunk ≠ ([] : Str)) := by
  have hres2 := hres
  simp only [retrieve, hds] at hres2
  rcases Option.bind_eq_some.mp hres2 with ⟨rawHits, hraw, h2⟩
  rw [if_pos hne] at h2
  rcases Option.bind_eq_some.mp h2 with ⟨filtered, hfil, h3⟩
  rcases Option.map_eq_some'.mp h3 with ⟨weighted, hwei, h4⟩
  subst h4
  have part1 : ∀ r ∈ (match opts.mmr with
      | some mo =>
        mmr (l2Normalize sq qE) emb idx.dim weighted (mo.lambda.getD (7 / 10))
          (opts.k.getD 5)
      | none => jsSliceTo (sortDescBy Retrieved.score weighted) (opts.k.getD 5)),
      strLower (domJS r.chunk) ∈ ds.map strLower := by
    intro r hr
    have hrw : r ∈ weighted := by
      cases hmo : opts.mmr with
      | some mo =>
        rw [hmo] at hr
        exact mem_mmr hr
      | none =>
        rw [hmo] at hr
        exact mem_sortDescBy.mp (mem_jsSliceTo hr)
    obtain ⟨h, hmem, c, hc, hrc⟩ := applyDomainWeights_mem hwei r hrw
    obtain ⟨-, c2, hc2, hdom⟩ := filterDomains_mem hfil h hmem
    rw [hc] at hc2
    injection hc2 with hcc
    rw [hrc, hcc]
    exact hdom
  refine ⟨part1, ?_⟩
  intro h0 r hr
  have hmem := part1 r hr
  constructor
  · intro hnone
    have hdz : domJS r.chunk = ([] : Str) := by simp [domJS, hnone]
    rw [hdz] at hmem
    exact h0 (by simpa [strLower] using hmem)
  · intro hdz
    rw [hdz] at hmem
    exact h0 (by simpa [strLower] using hmem)

/-- **C5** (counterexample to the claim as stated): with the non-empty
domain filter `[""]`, a chunk lacking any domain tag (modelled
`metaDomain = none`) is *returned*, because its tag reads as `""`, which is
in the allow-set — so "excluded by any non-empty filter" is false as
stated. -/
theorem C5_counterexample :
    retrieve (fun _ => 1)
        ⟨1, 1, 1, [], 0, none,
          [⟨strL ("c"), strL ("d"), strL ("t"), [], 0, [], none⟩]⟩
        [1] [] [1] ⟨none, some [[]], none, none⟩ =
      some ⟨[], [⟨⟨strL ("c"), strL ("d"), strL ("t"), [], 0, [], none⟩, 1, some 1⟩], 0,
        ⟨some [[]], none, none⟩⟩ ∧
    ([[]] : List Str) ≠ [] :=
  ⟨by with_unfolding_all decide, by decide⟩

theorem C5_witness :
    ((⟨none, some [strL ("rail")], none, none⟩ : RetrievalOptions).domains =
      some [strL ("rail")]) ∧
    ([strL ("rail")] ≠ ([] : List Str)) ∧
    (retrieve (fun _ => 1)
        ⟨1, 1, 1, [], 0, none,
          [⟨strL ("c"), strL ("d"), strL ("t"), [], 0, [],
            some (strL ("Rail"))⟩]⟩
        [1] [] [1] ⟨none, some [strL ("rail")], none, none⟩ =
      some ⟨[], [⟨⟨strL ("c"), strL ("d"), strL ("t"), [], 0, [],
            some (strL ("Rail"))⟩, 1, some 1⟩], 0,
        ⟨some [strL ("rail")], none, none⟩⟩) ∧
    ((∀ r ∈ (⟨[], [⟨⟨strL ("c"), strL ("d"), strL ("t"), [], 0, [],
            some (strL ("Rail"))⟩, 1, some 1⟩], 0,
        ⟨some [strL ("rail")], none, none⟩⟩ : RetrievalResult).topK,
        strLower (domJS r.chunk) ∈ [strL ("rail")].map strLower) ∧
      (([] : Str) ∉ [strL ("rail")].map strLower →
        ∀ r ∈ (⟨[], [⟨⟨strL ("c"), strL ("d"), strL ("t"), [], 0, [],
            some (strL ("Rail"))⟩, 1, some 1⟩], 0,
          ⟨some [strL ("rail")], none, none⟩⟩ : RetrievalResult).topK,
          r.chunk.metaDomain ≠ none ∧ domJS r.chunk ≠ ([] : Str))) :=
  ⟨rfl, by decide, by with_unfolding_all decide,
    C5_domain_filter_subset (fun _ => 1)
      ⟨1, 1, 1, [], 0, none,
        [⟨strL ("c"), strL ("d"), strL ("t"), [], 0, [], some (strL ("Rail"))⟩]⟩
      [1] [] [1] ⟨none, some [strL ("rail")], none, none⟩ [strL ("rail")]
      ⟨[], [⟨⟨strL ("c"), strL ("d"), strL ("t"), [], 0, [],
          some (strL ("Rail"))⟩, 1, some 1⟩], 0,
        ⟨some [strL ("rail")], none, none⟩⟩
      rfl (by decide) (by with_unfolding_all decide)⟩

/-- **C9** (amended).  A retrieval call whose options set `k ≤ 0` does not
fail at all — there is no `ConfigurationError` anywhere in the source and no
validation of `k`: given a well-formed index artifact (positive dimension,
row count within the chunk table) and a positive effective `fetchK`, the
call simply returns a result. -/
theorem C9_k_nonpositive_silently_accepted (sq : ℚ → ℚ) (idx : IndexJson)
    (emb : List ℚ) (query : Str) (qE : List ℚ) (opts : RetrievalOptions)
    (k' : ℤ) (hk : opts.k = some k') (hk0 : k' ≤ 0)
    (hdim : 0 < idx.dim)
    (hwf : emb.length / idx.dim ≤ idx.chunks.length)
    (hfetch : 0 < (opts.mmr.bind MmrOpts.fetchK).getD 40) :
    (retrieve sq idx emb query qE opts).isSome = true := by
  have hfetch1 : 1 ≤ max (k' * 4) ((opts.mmr.bind MmrOpts.fetchK).getD 40) :=
    le_trans hfetch (le_max_right _ _)
  obtain ⟨rawHits, hraw, hbound⟩ :=
    topKCosine_some (l2Normalize sq qE) emb idx.dim
      (max (k' * 4) ((opts.mmr.bind MmrOpts.fetchK).getD 40)) hdim hfetch1
  have hbound2 : ∀ h ∈ rawHits, h.index < idx.chunks.length :=
    fun h hm => lt_of_lt_of_le (hbound h hm) hwf
  simp only [retrieve, hk, Option.getD_some]
  rw [hraw]
  simp only [Option.some_bind]
  have hfiltered : ∃ filtered, (match opts.domains with
      | some ds =>
        if ds ≠ [] then filterDomains idx.chunks (ds.map strLower) rawHits
        else some rawHits
      | none => some rawHits) = some filtered ∧
      ∀ h ∈ filtered, h.index < idx.chunks.length := by
    cases hdom : opts.domains with
    | none => exact ⟨rawHits, rfl, hbound2⟩
    | some ds =>
      by_cases hds : ds ≠ []
      · obtain ⟨out, hout⟩ := filterDomains_some hbound2
        refine ⟨out, ?_, ?_⟩
        · show (if ds ≠ [] then filterDomains idx.chunks (List.map strLower ds) rawHits
            else some rawHits) = some out
          rw [if_pos hds]
          exact hout
        · intro h hm
          exact hbound2 h (filterDomains_mem hout h hm).1
      · refine ⟨rawHits, ?_, hbound2⟩
        show (if ds ≠ [] then filterDomains idx.chunks (List.map strLower ds) rawHits
          else some rawHits) = some rawHits
        rw [if_neg hds]
  obtain ⟨filtered, hfil, hfb⟩ := hfiltered
  rw [hfil]
  simp only [Option.some_bind]
  obtain ⟨l, hl⟩ := applyDomainWeights_some opts.domainWeights hfb
  rw [hl]
  rfl

/-- **C9** (counterexample to the claim as stated): a retrieval call with
`k = 0` succeeds and quietly returns an empty result set instead of failing
fast — no error of any kind is raised. -/
theorem C9_counterexample :
    retrieve (fun _ => 1)
        ⟨1, 1, 1, [], 0, none,
          [⟨strL ("c"), strL ("d"), strL ("t"), [], 0, [], none⟩]⟩
        [1] [] [1] ⟨some 0, none, none, none⟩ =
      some ⟨[], [], 0, ⟨none, none, none⟩⟩ := by
  with_unfolding_all decide

theorem C9_witness :
    ((⟨some 0, none, none, none⟩ : RetrievalOptions).k = some 0) ∧
    ((0 : ℤ) ≤ 0) ∧
    (0 < (⟨1, 1, 1, [], 0, none,
      [⟨strL ("c"), strL ("d"), strL ("t"), [], 0, [], none⟩]⟩ : IndexJson).dim) ∧
    (retrieve (fun _ => 1)
        ⟨1, 1, 1, [], 0, none,
          [⟨strL ("c"), strL ("d"), strL ("t"), [], 0, [], none⟩]⟩
        [1] [] [1] ⟨some 0, none, none, none⟩).isSome = true :=
  ⟨rfl, by decide, by decide,
    C9_k_nonpositive_silently_accepted (fun _ => 1)
      ⟨1, 1, 1, [], 0, none,
        [⟨strL ("c"), strL ("d"), strL ("t"), [], 0, [], none⟩]⟩
      [1] [] [1] ⟨some 0, none, none, none⟩ 0 rfl (by decide) (by decide)
      (by decide) (by decide)⟩

/-! ## Best-candidate scan characterization (C4) -/

/-- The running-best recursion underlying the `mmr` scan, written over the
still-unscanned suffix: `cur` is the current `(bestIdx, bestScore)`, `i` the
position of the suffix head in the original pool. -/
def bestFrom (sc : Retrieved → ℚ) : ℕ × ℚ → ℕ → List Retrieved → ℕ × ℚ
  | cur, _, [] => cur
  | cur, i, c :: rest =>
    bestFrom sc (if sc c > cur.2 then (i, sc c) else cur) (i + 1) rest

theorem pickStep_some_eq (lam : ℚ) (sel : List Retrieved) (i : ℕ)
    (cur : ℕ × ℚ) (c : Retrieved) :
    pickStep lam sel (i, some cur) c =
      (i + 1, some (if mmrScore lam sel c > cur.2 then (i, mmrScore lam sel c) else cur)) := by
  rcases cur with ⟨bi, bs⟩
  simp only [pickStep]
  split <;> simp_all

theorem pickFold_eq_bestFrom (lam : ℚ) (sel : List Retrieved) :
    ∀ (pool : List Retrieved) (i : ℕ) (cur : ℕ × ℚ),
      pool.foldl (pickStep lam sel) (i, some cur) =
        (i + pool.length, some (bestFrom (mmrScore lam sel) cur i pool)) := by
  intro pool
  induction pool with
  | nil => intro i cur; simp [bestFrom]
  | cons c rest ih =>
    intro i cur
    simp only [List.foldl_cons, pickStep_some_eq, bestFrom]
    rw [ih]
    simp only [List.length_cons]
    have harith : i + 1 + rest.length = i + (rest.length + 1) := by omega
    rw [harith]

theorem bestFrom_spec (sc : Retrieved → ℚ) :
    ∀ (l : List Retrieved) (i : ℕ) (cur : ℕ × ℚ),
      (bestFrom sc cur i l = cur ∧
        ∀ j, j < l.length → sc (l.getD j default) ≤ cur.2) ∨
      (∃ j, j < l.length ∧
        bestFrom sc cur i l = (i + j, sc (l.getD j default)) ∧
        cur.2 < sc (l.getD j default) ∧
        (∀ j2, j2 < l.length → sc (l.getD j2 default) ≤ sc (l.getD j default)) ∧
        (∀ j2, j2 < j → sc (l.getD j2 default) < sc (l.getD j default))) := by
  intro l
  induction l with
  | nil =>
    intro i cur
    left
    exact ⟨rfl, fun j hj => absurd hj (by simp)⟩
  | cons c rest ih =>
    intro i cur
    by_cases h0 : sc c > cur.2
    · have hunf : bestFrom sc cur i (c :: rest) = bestFrom sc (i, sc c) (i + 1) rest := by
        simp only [bestFrom, if_pos h0]
      rcases ih (i + 1) (i, sc c) with ⟨heq, hle⟩ | ⟨j, hj, heq, hgt, hmax, hstrict⟩
      · right
        refine ⟨0, by simp, ?_, ?_, ?_, ?_⟩
        · rw [hunf, heq]
          simp
        · simpa using h0
        · intro j2 hj2
          cases j2 with
          | zero => simp
          | succ j3 =>
            have : j3 < rest.length := by simpa using hj2
            simpa using hle j3 this
        · intro j2 hj2; omega
      · right
        refine ⟨j + 1, by simpa using hj, ?_, ?_, ?_, ?_⟩
        · rw [hunf, heq]
          have harith : i + 1 + j = i + (j + 1) := by omega
          rw [harith]
          simp
        · calc cur.2 < sc c := h0
            _ < sc (rest.getD j default) := hgt
        · intro j2 hj2
          cases j2 with
          | zero =>
            simpa using le_of_lt hgt
          | succ j3 =>
            have : j3 < rest.length := by simpa using hj2
            simpa using hmax j3 this
        · intro j2 hj2
          cases j2 with
          | zero => simpa using hgt
          | succ j3 =>
            have : j3 < j := by omega
            simpa using hstrict j3 this
    · have hunf : bestFrom sc cur i (c :: rest) = bestFrom sc cur (i + 1) rest := by
        simp only [bestFrom, if_neg h0]
      rcases ih (i + 1) cur with ⟨heq, hle⟩ | ⟨j, hj, heq, hgt, hmax, hstrict⟩
      · left
        refine ⟨by rw [hunf, heq], ?_⟩
        intro j hj
        cases j with
        | zero => simpa using le_of_not_lt h0
        | succ j3 =>
          have : j3 < rest.length := by simpa using hj
          simpa using hle j3 this
      · right
        refine ⟨j + 1, by simpa using hj, ?_, hgt, ?_, ?_⟩
        · rw [hunf, heq]
          have harith : i + 1 + j = i + (j + 1) := by omega
          rw [harith]
          simp
        · intro j2 hj2
          cases j2 with
          | zero =>
            simp only [List.getD_cons_zero, List.getD_cons_succ]
            exact le_of_lt (lt_of_le_of_lt (le_of_not_lt h0) hgt)
          | succ j3 =>
            have : j3 < rest.length := by simpa using hj2
            simpa using hmax j3 this
        · intro j2 hj2
          cases j2 with
          | zero =>
            simp only [List.getD_cons_zero, List.getD_cons_succ]
            exact lt_of_le_of_lt (le_of_not_lt h0) hgt
          | succ j3 =>
            have : j3 < j := by omega
            simpa using hstrict j3 this

/-- The scan of `mmr` picks the first pool position attaining the maximal
greedy objective: its winner is in range, carries its own objective value,
weakly dominates every pool entry and strictly dominates every earlier
one. -/
theorem pickFold_max (lam : ℚ) (sel pool : List Retrieved) (hne : pool ≠ []) :
    ∃ bi, bi < pool.length ∧
      (pickFold lam sel pool).2 = some (bi, mmrScore lam sel (pool.getD bi default)) ∧
      (∀ j, j < pool.length →
        mmrScore lam sel (pool.getD j default) ≤ mmrScore lam sel (pool.getD bi default)) ∧
      (∀ j, j < bi →
        mmrScore lam sel (pool.getD j default) < mmrScore lam sel (pool.getD bi default)) := by
  rcases pool with _ | ⟨c, rest⟩
  · exact absurd rfl hne
  · have h1 : pickFold lam sel (c :: rest) =
        ((c :: rest).foldl (pickStep lam sel) (0, none)) := rfl
    have h2 : pickStep lam sel (0, none) c = (1, some (0, mmrScore lam sel c)) := rfl
    have h3 : pickFold lam sel (c :: rest) =
        (1 + rest.length, some (bestFrom (mmrScore lam sel) (0, mmrScore lam sel c) 1 rest)) := by
      rw [h1, List.foldl_cons, h2, pickFold_eq_bestFrom]
    rcases bestFrom_spec (mmrScore lam sel) rest 1 (0, mmrScore lam sel c) with
      ⟨heq, hle⟩ | ⟨j, hj, heq, hgt, hmax, hstrict⟩
    · refine ⟨0, by simp, ?_, ?_, ?_⟩
      · rw [h3, heq]
        simp
      · intro j hj
        cases j with
        | zero => simp
        | succ j3 =>
          have : j3 < rest.length := by simpa using hj
          simpa using hle j3 this
      · intro j hj; omega
    · refine ⟨1 + j, by simp only [List.length_cons]; omega, ?_, ?_, ?_⟩
      · rw [h3, heq]
        have hidx : (c :: rest).getD (1 + j) default = rest.getD j default := by
          have : 1 + j = j + 1 := by omega
          rw [this]
          simp
        rw [hidx]
      · intro j2 hj2
        have hidx : (c :: rest).getD (1 + j) default = rest.getD j default := by
          have : 1 + j = j + 1 := by omega
          rw [this]
          simp
        rw [hidx]
        cases j2 with
        | zero => simpa using le_of_lt hgt
        | succ j3 =>
          have : j3 < rest.length := by simpa using hj2
          simpa using hmax j3 this
      · intro j2 hj2
        have hidx : (c :: rest).getD (1 + j) default = rest.getD j default := by
          have : 1 + j = j + 1 := by omega
          rw [this]
          simp
        rw [hidx]
        cases j2 with
        | zero => simpa using hgt
        | succ j3 =>
          have : j3 < j := by omega
          simpa using hstrict j3 this

/-! ## Redundancy characterization and the C4 claim -/

/-- The spec's per-item redundancy penalty: `0.5` on a shared source
document, else `0.3` on an identical title, else `0` — same-document
similarity dominates same-title similarity. -/
def specPenalty (s cand : Retrieved) : ℚ :=
  if s.chunk.doc_id = cand.chunk.doc_id then 1 / 2
  else if s.chunk.title = cand.chunk.title then 3 / 10 else 0

/-- The spec's redundancy: the maximum per-item penalty over the selected
set (`0` when nothing is selected yet). -/
def specRedundancy (selected : List Retrieved) (cand : Retrieved) : ℚ :=
  (selected.map (fun s => specPenalty s cand)).foldr max 0

theorem specPenalty_nonneg (s cand : Retrieved) : 0 ≤ specPenalty s cand := by
  unfold specPenalty
  split
  · norm_num
  · split
    · norm_num
    · exact le_refl 0

theorem redundancy_foldl_eq (cand : Retrieved) :
    ∀ (sel : List Retrieved) (r : ℚ), 0 ≤ r →
      sel.foldl
        (fun r s =>
          let r1 := if s.chunk.doc_id = cand.chunk.doc_id then max r (1 / 2) else r
          if s.chunk.title = cand.chunk.title then max r1 (3 / 10) else r1)
        r = max r ((sel.map (fun s => specPenalty s cand)).foldr max 0) := by
  intro sel
  induction sel with
  | nil =>
    intro r hr
    simp only [List.foldl_nil, List.map_nil, List.foldr_nil]
    exact (max_eq_left hr).symm
  | cons s sel ih =>
    intro r hr
    have hstep :
        (let r1 := if s.chunk.doc_id = cand.chunk.doc_id then max r (1 / 2) else r
         if s.chunk.title = cand.chunk.title then max r1 (3 / 10) else r1) =
          max r (specPenalty s cand) := by
      simp only [specPenalty]
      by_cases hd : s.chunk.doc_id = cand.chunk.doc_id
      · by_cases ht : s.chunk.title = cand.chunk.title
        · simp only [hd, ht, if_pos]
          rw [max_assoc]
          congr 1
          exact max_eq_left (by norm_num)
        · simp [hd, ht]
      · by_cases ht : s.chunk.title = cand.chunk.title
        · simp [hd, ht]
        · simp only [hd, ht, if_neg, not_false_iff, if_false]
          exact (max_eq_left hr).symm
    simp only [List.foldl_cons, List.map_cons, List.foldr_cons]
    rw [hstep, ih (max r (specPenalty s cand)) (le_trans hr (le_max_left _ _))]
    rw [max_assoc]

theorem foldr_max_nonneg (l : List ℚ) : 0 ≤ l.foldr max 0 := by
  induction l with
  | nil => simp
  | cons x l ih => exact le_trans ih (le_max_right _ _)

/-- The redundancy accumulation of the source equals the spec's
max-of-penalties formula. -/
theorem redundancy_eq_spec (sel : List Retrieved) (cand : Retrieved) :
    redundancy sel cand = specRedundancy sel cand := by
  unfold redundancy specRedundancy
  rw [redundancy_foldl_eq cand sel 0 le_rfl]
  exact max_eq_right (foldr_max_nonneg _)

/-- **C4.**  At every step of the diversification loop of `mmr` (a loop
step runs whenever the selection is still short of `k` and the pool is
nonempty), the element moved from the pool to the selection is one
maximizing `lambda * weightedScore − (1 − lambda) * redundancy`, where the
redundancy of a candidate against the already-selected set is the maximum
over selected items of `0.5` for a shared source document (`doc_id`), else
`0.3` for an identical title, else `0`; ties go to the first-encountered
pool position (every strictly earlier position scores strictly lower), and
the omitted-argument defaults of `mmr` are `lambda = 0.7`, `k = 5`. -/
theorem C4_mmr_greedy_selection (lam : ℚ) (k : ℤ) (fuel : ℕ)
    (sel pool : List Retrieved)
    (hg : (sel.length : ℤ) < k) (hne : pool ≠ []) :
    (∃ bi, bi < pool.length ∧
      (pickFold lam sel pool).2 =
        some (bi, mmrScore lam sel (pool.getD bi default)) ∧
      mmrLoop lam k (fuel + 1) sel pool =
        mmrLoop lam k fuel (sel ++ [pool.getD bi default]) (pool.eraseIdx bi) ∧
      (∀ j, j < pool.length →
        lam * (pool.getD j default).score -
            (1 - lam) * specRedundancy sel (pool.getD j default) ≤
          lam * (pool.getD bi default).score -
            (1 - lam) * specRedundancy sel (pool.getD bi default)) ∧
      (∀ j, j < bi →
        lam * (pool.getD j default).score -
            (1 - lam) * specRedundancy sel (pool.getD j default) <
          lam * (pool.getD bi default).score -
            (1 - lam) * specRedundancy sel (pool.getD bi default))) ∧
    (∀ s c, redundancy s c = specRedundancy s c) ∧
    (∀ (qv e : List ℚ) (dim : ℕ) (cands : List Retrieved),
      mmr qv e dim cands = mmrLoop (7 / 10) 5 cands.length [] cands) := by
  refine ⟨?_, redundancy_eq_spec, fun _ _ _ _ => rfl⟩
  obtain ⟨bi, hbi, hsome, hmax, hstrict⟩ := pickFold_max lam sel pool hne
  have hms : ∀ c, mmrScore lam sel c =
      lam * c.score - (1 - lam) * specRedundancy sel c := by
    intro c
    unfold mmrScore
    rw [redundancy_eq_spec]
  refine ⟨bi, hbi, hsome, ?_, ?_, ?_⟩
  · simp only [mmrLoop]
    rw [if_pos ⟨hg, hne⟩, hsome]
  · intro j hj
    have := hmax j hj
    rwa [hms, hms] at this
  · intro j hj
    have := hstrict j hj
    rwa [hms, hms] at this

theorem C4_witness :
    (((([] : List Retrieved)).length : ℤ) < 5) ∧
    (([⟨⟨strL ("c1"), strL ("d1"), strL ("t1"), [], 0, [], none⟩, 1, none⟩,
       ⟨⟨strL ("c2"), strL ("d2"), strL ("t2"), [], 0, [], none⟩, 2, none⟩] :
      List Retrieved) ≠ []) ∧
    ((∃ bi, bi < ([⟨⟨strL ("c1"), strL ("d1"), strL ("t1"), [], 0, [], none⟩, 1, none⟩,
          ⟨⟨strL ("c2"), strL ("d2"), strL ("t2"), [], 0, [], none⟩, 2, none⟩] :
          List Retrieved).length ∧
      (pickFold (7 / 10) []
          [⟨⟨strL ("c1"), strL ("d1"), strL ("t1"), [], 0, [], none⟩, 1, none⟩,
           ⟨⟨strL ("c2"), strL ("d2"), strL ("t2"), [], 0, [], none⟩, 2, none⟩]).2 =
        some (bi, mmrScore (7 / 10) []
          (([⟨⟨strL ("c1"), strL ("d1"), strL ("t1"), [], 0, [], none⟩, 1, none⟩,
             ⟨⟨strL ("c2"), strL ("d2"), strL ("t2"), [], 0, [], none⟩, 2, none⟩] :
            List Retrieved).getD bi default)) ∧
      mmrLoop (7 / 10) 5 (1 + 1) []
          [⟨⟨strL ("c1"), strL ("d1"), strL ("t1"), [], 0, [], none⟩, 1, none⟩,
           ⟨⟨strL ("c2"), strL ("d2"), strL ("t2"), [], 0, [], none⟩, 2, none⟩] =
        mmrLoop (7 / 10) 5 1
          ([] ++ [([⟨⟨strL ("c1"), strL ("d1"), strL ("t1"), [], 0, [], none⟩, 1, none⟩,
             ⟨⟨strL ("c2"), strL ("d2"), strL ("t2"), [], 0, [], none⟩, 2, none⟩] :
            List Retrieved).getD bi default])
          (([⟨⟨strL ("c1"), strL ("d1"), strL ("t1"), [], 0, [], none⟩, 1, none⟩,
             ⟨⟨strL ("c2"), strL ("d2"), strL ("t2"), [], 0, [], none⟩, 2, none⟩] :
            List Retrieved).eraseIdx bi) ∧
      (∀ j, j < ([⟨⟨strL ("c1"), strL ("d1"), strL ("t1"), [], 0, [], none⟩, 1, none⟩,
          ⟨⟨strL ("c2"), strL ("d2"), strL ("t2"), [], 0, [], none⟩, 2, none⟩] :
          List Retrieved).length →
        (7 / 10 : ℚ) * (([⟨⟨strL ("c1"), strL ("d1"), strL ("t1"), [], 0, [], none⟩, 1, none⟩,
              ⟨⟨strL ("c2"), strL ("d2"), strL ("t2"), [], 0, [], none⟩, 2, none⟩] :
              List Retrieved).getD j default).score -
            (1 - 7 / 10) * specRedundancy []
              (([⟨⟨strL ("c1"), strL ("d1"), strL ("t1"), [], 0, [], none⟩, 1, none⟩,
                 ⟨⟨strL ("c2"), strL ("d2"), strL ("t2"), [], 0, [], none⟩, 2, none⟩] :
                List Retrieved).getD j default) ≤
          (7 / 10 : ℚ) * (([⟨⟨strL ("c1"), strL ("d1"), strL ("t1"), [], 0, [], none⟩, 1, none⟩,
              ⟨⟨strL ("c2"), strL ("d2"), strL ("t2"), [], 0, [], none⟩, 2, none⟩] :
              List Retrieved).getD bi default).score -
            (1 - 7 / 10) * specRedundancy []
              (([⟨⟨strL ("c1"), strL ("d1"), strL ("t1"), [], 0, [], none⟩, 1, none⟩,
                 ⟨⟨strL ("c2"), strL ("d2"), strL ("t2"), [], 0, [], none⟩, 2, none⟩] :
                List Retrieved).getD bi default)) ∧
      (∀ j, j < bi →
        (7 / 10 : ℚ) * (([⟨⟨strL ("c1"), strL ("d1"), strL ("t1"), [], 0, [], none⟩, 1, none⟩,
              ⟨⟨strL ("c2"), strL ("d2"), strL ("t2"), [], 0, [], none⟩, 2, none⟩] :
              List Retrieved).getD j default).score -
            (1 - 7 / 10) * specRedundancy []
              (([⟨⟨strL ("c1"), strL ("d1"), strL ("t1"), [], 0, [], none⟩, 1, none⟩,
                 ⟨⟨strL ("c2"), strL ("d2"), strL ("t2"), [], 0, [], none⟩, 2, none⟩] :
                List Retrieved).getD j default) <
          (7 / 10 : ℚ) * (([⟨⟨strL ("c1"), strL ("d1"), strL ("t1"), [], 0, [], none⟩, 1, none⟩,
              ⟨⟨strL ("c2"), strL ("d2"), strL ("t2"), [], 0, [], none⟩, 2, none⟩] :
              List Retrieved).getD bi default).score -
            (1 - 7 / 10) * specRedundancy []
              (([⟨⟨strL ("c1"), strL ("d1"), strL ("t1"), [], 0, [], none⟩, 1, none⟩,
                 ⟨⟨strL ("c2"), strL ("d2"), strL ("t2"), [], 0, [], none⟩, 2, none⟩] :
                List Retrieved).getD bi default))) ∧
      (∀ s c, redundancy s c = specRedundancy s c) ∧
      (∀ (qv e : List ℚ) (dim : ℕ) (cands : List Retrieved),
        mmr qv e dim cands = mmrLoop (7 / 10) 5 cands.length [] cands)) :=
  ⟨by decide, by decide,
    C4_mmr_greedy_selection (7 / 10) 5 1 []
      [⟨⟨strL ("c1"), strL ("d1"), strL ("t1"), [], 0, [], none⟩, 1, none⟩,
       ⟨⟨strL ("c2"), strL ("d2"), strL ("t2"), [], 0, [], none⟩, 2, none⟩]
      (by decide) (by decide)⟩

/-! ## Counting and map-lookup lemmas (towards C7) -/

/-- Number of occurrences of a token in a token list. -/
def countTok (ts : List Str) (t : Str) : ℕ :=
  (ts.filter (fun x => decide (x = t))).length

/-- Number of document entries whose tokenized text contains the term
(one per list entry, exactly as the `df` bump in `buildIndex` counts). -/
def dfCount (docs : List Doc) (t : Str) : ℕ :=
  (docs.filter (fun d => decide (t ∈ tokenize d.text))).length

/-- The repeated-bump fold shared by `tf` and the `df` update. -/
def bumpAll (m : List (Str × ℚ)) (ks : List Str) : List (Str × ℚ) :=
  ks.foldl (fun m k => mset m k (mgetD m k 0 + 1)) m

theorem tf_eq_bumpAll (ts : List Str) : tf ts = bumpAll [] ts := rfl

theorem countTok_cons (k : Str) (ks : List Str) (t : Str) :
    countTok (k :: ks) t = (if k = t then 1 else 0) + countTok ks t := by
  simp only [countTok, List.filter_cons]
  split
  · next h =>
    rw [if_pos (by simpa using h)]
    simp [Nat.add_comm]
  · next h =>
    rw [if_neg (by simpa using h)]
    simp

theorem countTok_eq_zero {ks : List Str} {t : Str} :
    countTok ks t = 0 ↔ t ∉ ks := by
  induction ks with
  | nil => simp [countTok]
  | cons k ks ih =>
    rw [countTok_cons]
    constructor
    · intro h hm
      rcases List.mem_cons.mp hm with hm2 | hm2
      · rw [if_pos hm2.symm] at h
        omega
      · have h0 : countTok ks t = 0 := by omega
        exact ih.mp h0 hm2
    · intro hm
      have h1 : ¬ k = t := fun he => hm (he ▸ List.mem_cons_self _ _)
      have h2 : t ∉ ks := fun hc => hm (List.mem_cons_of_mem _ hc)
      rw [if_neg h1, ih.mpr h2]

theorem countTok_nodup_mem {ks : List Str} {t : Str} (hn : ks.Nodup)
    (hm : t ∈ ks) : countTok ks t = 1 := by
  induction ks with
  | nil => simp at hm
  | cons k ks ih =>
    rw [countTok_cons]
    rcases List.mem_cons.mp hm with hm2 | hm2
    · subst hm2
      rw [if_pos rfl]
      have h0 : t ∉ ks := (List.nodup_cons.mp hn).1
      rw [countTok_eq_zero.mpr h0]
    · have h1 : ¬ k = t := by
        intro he
        subst he
        exact (List.nodup_cons.mp hn).1 hm2
      rw [if_neg h1, ih (List.nodup_cons.mp hn).2 hm2]

theorem dfCount_cons (d : Doc) (docs : List Doc) (t : Str) :
    dfCount (d :: docs) t =
      (if t ∈ tokenize d.text then 1 else 0) + dfCount docs t := by
  simp only [dfCount, List.filter_cons]
  split
  · next h =>
    rw [if_pos (by simpa using h)]
    simp [Nat.add_comm]
  · next h =>
    rw [if_neg (by simpa using h)]
    simp

theorem mget_mset (m : List (Str × α)) (k : Str) (v : α) (t : Str) :
    mget (mset m k v) t = if t = k then some v else mget m t := by
  induction m with
  | nil =>
    by_cases h : t = k
    · subst h
      simp [mset, mget]
    · have h2 : ¬ k = t := fun he => h he.symm
      simp [mset, mget, h, h2]
  | cons p m ih =>
    obtain ⟨pk, pv⟩ := p
    by_cases hpk : pk = k
    · subst hpk
      by_cases h : t = pk
      · subst h
        simp [mset, mget]
      · have h2 : ¬ pk = t := fun he => h he.symm
        simp [mset, mget, h, h2]
    · by_cases h : pk = t
      · subst h
        have htk : ¬ pk = k := hpk
        simp [mset, mget, hpk, htk]
      · simp [mset, mget, hpk, h, ih]

theorem mget_none_iff (m : List (Str × α)) (t : Str) :
    mget m t = none ↔ t ∉ mkeys m := by
  induction m with
  | nil =>
    constructor
    · intro _ hc
      exact absurd hc (List.not_mem_nil t)
    · intro _
      rfl
  | cons p m ih =>
    obtain ⟨pk, pv⟩ := p
    by_cases h : pk = t
    · subst h
      constructor
      · intro hc
        simp only [mget, if_pos rfl] at hc
        exact absurd hc (by simp)
      · intro hc
        exact absurd (List.mem_cons_self pk (List.map Prod.fst m)) hc
    · have hget : mget ((pk, pv) :: m) t = mget m t := by
        simp only [mget, if_neg h]
      rw [hget, ih]
      constructor
      · intro hc hmem
        rcases List.mem_cons.mp hmem with hm2 | hm2
        · exact h hm2.symm
        · exact hc hm2
      · intro hc hmem
        exact hc (List.mem_cons_of_mem _ hmem)

theorem mkeys_mset (m : List (Str × α)) (k : Str) (v : α) :
    mkeys (mset m k v) = if k ∈ mkeys m then mkeys m else mkeys m ++ [k] := by
  induction m with
  | nil =>
    rw [if_neg (by simp [mkeys])]
    rfl
  | cons p m ih =>
    obtain ⟨pk, pv⟩ := p
    by_cases h : pk = k
    · subst h
      have hmem : pk ∈ mkeys ((pk, pv) :: m) :=
        List.mem_cons_self pk (List.map Prod.fst m)
      rw [if_pos hmem]
      have hset : mset ((pk, pv) :: m) pk v = (pk, v) :: m := by
        simp [mset]
      rw [hset]
      rfl
    · have h2 : ¬ k = pk := fun he => h he.symm
      have hset : mset ((pk, pv) :: m) k v = (pk, pv) :: mset m k v := by
        simp [mset, h]
      rw [hset]
      have hk1 : mkeys ((pk, pv) :: mset m k v) = pk :: mkeys (mset m k v) := rfl
      rw [hk1, ih]
      by_cases hm : k ∈ mkeys m
      · have hyes : k ∈ mkeys ((pk, pv) :: m) := by
          simp only [mkeys, List.map_cons, List.mem_cons]
          exact Or.inr hm
        rw [if_pos hm, if_pos hyes]
        rfl
      · have hnot : k ∉ mkeys ((pk, pv) :: m) := by
          simp only [mkeys, List.map_cons, List.mem_cons]
          intro hc
          rcases hc with hc | hc
          · exact h2 hc
          · exact hm hc
        rw [if_neg hm, if_neg hnot]
        rfl

theorem mkeys_nodup_mset (m : List (Str × α)) (k : Str) (v : α)
    (hn : (mkeys m).Nodup) : (mkeys (mset m k v)).Nodup := by
  rw [mkeys_mset]
  split
  · exact hn
  · next h =>
    simp only [List.nodup_append, List.nodup_cons, List.nodup_nil]
    exact ⟨hn, by simp, by simpa using h⟩

theorem bumpAll_val : ∀ (ks : List Str) (m : List (Str × ℚ)) (t : Str),
    mgetD (bumpAll m ks) t 0 = mgetD m t 0 + (countTok ks t : ℚ) := by
  intro ks
  induction ks with
  | nil => intro m t; simp [bumpAll, countTok]
  | cons k ks ih =>
    intro m t
    have hstep : bumpAll m (k :: ks) = bumpAll (mset m k (mgetD m k 0 + 1)) ks := rfl
    rw [hstep, ih, countTok_cons]
    unfold mgetD
    rw [mget_mset]
    by_cases h : t = k
    · subst h
      rw [if_pos rfl, if_pos rfl]
      push_cast
      simp only [Option.getD_some]
      ring
    · have h2 : ¬ k = t := fun he => h he.symm
      rw [if_neg h, if_neg h2]
      push_cast
      ring

theorem bumpAll_none : ∀ (ks : List Str) (m : List (Str × ℚ)) (t : Str),
    mget (bumpAll m ks) t = none ↔ mget m t = none ∧ t ∉ ks := by
  intro ks
  induction ks with
  | nil => intro m t; simp [bumpAll]
  | cons k ks ih =>
    intro m t
    have hstep : bumpAll m (k :: ks) = bumpAll (mset m k (mgetD m k 0 + 1)) ks := rfl
    rw [hstep, ih, mget_mset]
    by_cases h : t = k
    · subst h
      simp
    · simp [h, List.mem_cons]

theorem bumpAll_keys_nodup : ∀ (ks : List Str) (m : List (Str × ℚ)),
    (mkeys m).Nodup → (mkeys (bumpAll m ks)).Nodup := by
  intro ks
  induction ks with
  | nil => intro m hn; exact hn
  | cons k ks ih =>
    intro m hn
    exact ih _ (mkeys_nodup_mset _ _ _ hn)

theorem tf_keys_nodup (ts : List Str) : (mkeys (tf ts)).Nodup := by
  rw [tf_eq_bumpAll]
  exact bumpAll_keys_nodup ts [] (by simp [mkeys])

/-- First-occurrence deduplication, the key order a JS `Map` built by
repeated `set` ends up with. -/
def firstKeys (ts : List Str) : List Str :=
  ts.foldl (fun acc k => if k ∈ acc then acc else acc ++ [k]) []

theorem firstKeys_aux_mem : ∀ (ts acc : List Str) (t : Str),
    t ∈ ts.foldl (fun acc k => if k ∈ acc then acc else acc ++ [k]) acc ↔
      t ∈ acc ∨ t ∈ ts := by
  intro ts
  induction ts with
  | nil => intro acc t; simp
  | cons k ks ih =>
    intro acc t
    simp only [List.foldl_cons, ih]
    by_cases h : k ∈ acc
    · rw [if_pos h]
      constructor
      · intro hc
        rcases hc with hc | hc
        · exact Or.inl hc
        · exact Or.inr (List.mem_cons_of_mem _ hc)
      · intro hc
        rcases hc with hc | hc
        · exact Or.inl hc
        · rcases List.mem_cons.mp hc with hc2 | hc2
          · exact Or.inl (hc2 ▸ h)
          · exact Or.inr hc2
    · rw [if_neg h]
      constructor
      · intro hc
        rcases hc with hc | hc
        · rcases List.mem_append.mp hc with hc2 | hc2
          · exact Or.inl hc2
          · have ht : t = k := by simpa using hc2
            exact Or.inr (ht ▸ List.mem_cons_self _ _)
        · exact Or.inr (List.mem_cons_of_mem _ hc)
      · intro hc
        rcases hc with hc | hc
        · exact Or.inl (List.mem_append.mpr (Or.inl hc))
        · rcases List.mem_cons.mp hc with hc2 | hc2
          · exact Or.inl (List.mem_append.mpr (Or.inr (by simpa using hc2)))
          · exact Or.inr hc2

theorem firstKeys_mem (ts : List Str) (t : Str) :
    t ∈ firstKeys ts ↔ t ∈ ts := by
  unfold firstKeys
  rw [firstKeys_aux_mem]
  simp

theorem firstKeys_aux_nodup : ∀ (ts acc : List Str), acc.Nodup →
    (ts.foldl (fun acc k => if k ∈ acc then acc else acc ++ [k]) acc).Nodup := by
  intro ts
  induction ts with
  | nil => intro acc hn; exact hn
  | cons k ks ih =>
    intro acc hn
    simp only [List.foldl_cons]
    by_cases h : k ∈ acc
    · rw [if_pos h]; exact ih acc hn
    · rw [if_neg h]
      refine ih _ ?_
      simp only [List.nodup_append, List.nodup_cons, List.nodup_nil]
      exact ⟨hn, by simp, by simpa using h⟩

theorem firstKeys_nodup (ts : List Str) : (firstKeys ts).Nodup :=
  firstKeys_aux_nodup ts [] List.nodup_nil

theorem mkeys_bumpAll : ∀ (ks : List Str) (m : List (Str × ℚ)),
    mkeys (bumpAll m ks) =
      ks.foldl (fun acc k => if k ∈ acc then acc else acc ++ [k]) (mkeys m) := by
  intro ks
  induction ks with
  | nil => intro m; rfl
  | cons k ks ih =>
    intro m
    have hstep : bumpAll m (k :: ks) = bumpAll (mset m k (mgetD m k 0 + 1)) ks := rfl
    rw [hstep, ih, List.foldl_cons, mkeys_mset]

theorem mkeys_tf (ts : List Str) : mkeys (tf ts) = firstKeys ts := by
  rw [tf_eq_bumpAll, mkeys_bumpAll]
  rfl

/-! ## Term-frequency and map-shape lemmas (towards C7) -/

theorem mget_eq_some_getD (d : α) {m : List (Str × α)} {t : Str}
    (h : mget m t ≠ none) : mget m t = some (mgetD m t d) := by
  cases hm : mget m t with
  | none => exact absurd hm h
  | some v => simp [mgetD, hm]

/-- Lookup in `tf`: present iff the token occurs, with its occurrence
count as value. -/
theorem tf_lookup (ts : List Str) (t : Str) :
    mget (tf ts) t =
      if t ∈ ts then some ((countTok ts t : ℚ)) else none := by
  by_cases h : t ∈ ts
  · rw [if_pos h]
    have hne : mget (tf ts) t ≠ none := by
      intro hc
      rw [tf_eq_bumpAll, bumpAll_none] at hc
      exact hc.2 h
    rw [mget_eq_some_getD 0 hne]
    have hval : mgetD (tf ts) t 0 = (countTok ts t : ℚ) := by
      rw [tf_eq_bumpAll, bumpAll_val]
      simp [mgetD, mget]
    rw [hval]
  · rw [if_neg h]
    rw [tf_eq_bumpAll, bumpAll_none]
    exact ⟨rfl, h⟩

/-- Lookup in a list of pairs built by mapping a function over keys. -/
theorem mget_map_keys (f : Str → α) :
    ∀ (ks : List Str) (t : Str),
      mget (ks.map (fun k => (k, f k))) t =
        if t ∈ ks then some (f t) else none := by
  intro ks
  induction ks with
  | nil => intro t; simp [mget]
  | cons k ks ih =>
    intro t
    simp only [List.map_cons, mget]
    by_cases h : k = t
    · subst h
      rw [if_pos rfl, if_pos (List.mem_cons_self _ _)]
    · rw [if_neg h, ih]
      by_cases h2 : t ∈ ks
      · rw [if_pos h2, if_pos (List.mem_cons_of_mem _ h2)]
      · have hnotin : t ∉ k :: ks := by
          intro hc
          rcases List.mem_cons.mp hc with hc2 | hc2
          · exact h hc2.symm
          · exact h2 hc2
        rw [if_neg h2, if_neg hnotin]

/-- Lookup through a value transformation of an association list. -/
theorem mget_map_val (f : α → β) :
    ∀ (m : List (Str × α)) (t : Str),
      mget (m.map (fun p => (p.1, f p.2))) t = (mget m t).map f := by
  intro m
  induction m with
  | nil => intro t; simp [mget]
  | cons p m ih =>
    intro t
    obtain ⟨pk, pv⟩ := p
    simp only [List.map_cons, mget]
    by_cases h : pk = t
    · rw [if_pos h, if_pos h]
      rfl
    · rw [if_neg h, if_neg h, ih]

theorem mkeys_map_val (f : α → β) (m : List (Str × α)) :
    mkeys (m.map (fun p => (p.1, f p.2))) = mkeys m := by
  simp [mkeys, List.map_map]

/-- Two association lists with the same (duplicate-free) key sequence and
the same lookups are equal. -/
theorem assoc_ext : ∀ (m1 m2 : List (Str × α)),
    mkeys m1 = mkeys m2 → (mkeys m1).Nodup →
    (∀ t, mget m1 t = mget m2 t) → m1 = m2 := by
  intro m1
  induction m1 with
  | nil =>
    intro m2 hk _ _
    cases m2 with
    | nil => rfl
    | cons q m2 => simp [mkeys] at hk
  | cons p m1 ih =>
    intro m2 hk hn hget
    cases m2 with
    | nil => simp [mkeys] at hk
    | cons q m2 =>
      obtain ⟨pk, pv⟩ := p
      obtain ⟨qk, qv⟩ := q
      have hk1 : pk = qk := by
        have := congrArg (fun l => l.headI) hk
        simpa [mkeys] using this
      have hk2 : mkeys m1 = mkeys m2 := by
        have := congrArg List.tail hk
        simpa [mkeys] using this
      subst hk1
      have hv : pv = qv := by
        have h1 := hget pk
        simp only [mget, if_pos rfl] at h1
        injection h1
      subst hv
      have hn3 : (pk :: mkeys m1).Nodup := hn
      have hn2 : (mkeys m1).Nodup := (List.nodup_cons.mp hn3).2
      have hpknot : pk ∉ mkeys m1 := (List.nodup_cons.mp hn3).1
      have htail : m1 = m2 := by
        refine ih m2 hk2 hn2 ?_
        intro t
        by_cases h : t = pk
        · subst h
          have h1n : mget m1 t = none := (mget_none_iff _ _).mpr hpknot
          have h2n : mget m2 t = none := by
            rw [mget_none_iff]
            rw [← hk2]
            exact hpknot
          rw [h1n, h2n]
        · have h1 := hget t
          have hne : ¬ pk = t := fun he => h he.symm
          simpa only [mget, if_neg hne] using h1
      rw [htail]

theorem mset_of_none {m : List (Str × α)} {k : Str} {v : α}
    (h : mget m k = none) : mset m k v = m ++ [(k, v)] := by
  induction m with
  | nil => rfl
  | cons p m ih =>
    obtain ⟨pk, pv⟩ := p
    simp only [mget] at h
    by_cases hp : pk = k
    · rw [if_pos hp] at h
      exact absurd h (by simp)
    · rw [if_neg hp] at h
      simp only [mset, if_neg hp, List.cons_append]
      rw [ih h]

theorem mget_append_none {m1 m2 : List (Str × α)} {t : Str} :
    mget (m1 ++ m2) t = none ↔ mget m1 t = none ∧ mget m2 t = none := by
  induction m1 with
  | nil => simp [mget]
  | cons p m1 ih =>
    obtain ⟨pk, pv⟩ := p
    simp only [List.cons_append, mget]
    by_cases h : pk = t
    · simp [h]
    · simp [h, ih]

theorem mofList_fresh : ∀ (ps m0 : List (Str × α)),
    (mkeys ps).Nodup → (∀ p ∈ ps, mget m0 p.1 = none) →
    ps.foldl (fun m p => mset m p.1 p.2) m0 = m0 ++ ps := by
  intro ps
  induction ps with
  | nil => intro m0 _ _; simp
  | cons p ps ih =>
    intro m0 hn hfresh
    obtain ⟨pk, pv⟩ := p
    have hfresh0 : mget m0 pk = none := hfresh (pk, pv) (List.mem_cons_self _ _)
    simp only [List.foldl_cons]
    rw [mset_of_none hfresh0]
    have hn3 : (pk :: mkeys ps).Nodup := hn
    have hn2 : (mkeys ps).Nodup := (List.nodup_cons.mp hn3).2
    have hpknot : pk ∉ mkeys ps := (List.nodup_cons.mp hn3).1
    have hfresh2 : ∀ q ∈ ps, mget (m0 ++ [(pk, pv)]) q.1 = none := by
      intro q hq
      rw [mget_append_none]
      refine ⟨hfresh q (List.mem_cons_of_mem _ hq), ?_⟩
      have hqk : ¬ pk = q.1 := by
        intro he
        exact hpknot (he ▸ (List.mem_map.mpr ⟨q, hq, rfl⟩))
      simp [mget, hqk]
    rw [ih (m0 ++ [(pk, pv)]) hn2 hfresh2]
    simp

/-- A JS `Map` freshly built from pairs with pairwise-distinct keys is
just that pair list. -/
theorem mofList_eq_self {ps : List (Str × α)} (hn : (mkeys ps).Nodup) :
    mofList ps = ps := by
  have := mofList_fresh ps [] hn (fun p _ => rfl)
  simpa [mofList] using this

/-! ## Document-frequency and IDF characterization (C7) -/

theorem build_df : ∀ (docs : List Doc) (st : BuildState),
    (docs.foldl buildStep st).df =
      docs.foldl (fun m d => bumpAll m (mkeys (tf (tokenize d.text)))) st.df := by
  intro docs
  induction docs with
  | nil => intro st; rfl
  | cons d docs ih =>
    intro st
    simp only [List.foldl_cons]
    rw [ih]
    rfl

theorem dfFold_val : ∀ (docs : List Doc) (m : List (Str × ℚ)) (t : Str),
    mgetD (docs.foldl (fun m d => bumpAll m (mkeys (tf (tokenize d.text)))) m) t 0 =
      mgetD m t 0 + (dfCount docs t : ℚ) := by
  intro docs
  induction docs with
  | nil => intro m t; simp [dfCount]
  | cons d docs ih =>
    intro m t
    simp only [List.foldl_cons]
    rw [ih, bumpAll_val, dfCount_cons]
    have hks : countTok (mkeys (tf (tokenize d.text))) t =
        if t ∈ tokenize d.text then 1 else 0 := by
      by_cases h : t ∈ tokenize d.text
      · rw [if_pos h]
        exact countTok_nodup_mem (tf_keys_nodup _)
          (by rw [mkeys_tf]; exact (firstKeys_mem _ _).mpr h)
      · rw [if_neg h]
        exact countTok_eq_zero.mpr
          (by rw [mkeys_tf]; exact fun hc => h ((firstKeys_mem _ _).mp hc))
    rw [hks]
    by_cases h : t ∈ tokenize d.text
    · rw [if_pos h]
      push_cast
      ring
    · rw [if_neg h]
      push_cast
      ring

theorem dfFold_none : ∀ (docs : List Doc) (m : List (Str × ℚ)) (t : Str),
    mget (docs.foldl (fun m d => bumpAll m (mkeys (tf (tokenize d.text)))) m) t = none ↔
      mget m t = none ∧ dfCount docs t = 0 := by
  intro docs
  induction docs with
  | nil => intro m t; simp [dfCount]
  | cons d docs ih =>
    intro m t
    simp only [List.foldl_cons]
    rw [ih, bumpAll_none, dfCount_cons]
    have hmem : t ∈ mkeys (tf (tokenize d.text)) ↔ t ∈ tokenize d.text := by
      rw [mkeys_tf]
      exact firstKeys_mem _ _
    constructor
    · rintro ⟨⟨h1, h2⟩, h3⟩
      have h4 : t ∉ tokenize d.text := fun hc => h2 (hmem.mpr hc)
      rw [if_neg h4]
      exact ⟨h1, by omega⟩
    · rintro ⟨h1, h2⟩
      by_cases h : t ∈ tokenize d.text
      · rw [if_pos h] at h2
        omega
      · rw [if_neg h] at h2
        exact ⟨⟨h1, fun hc => h (hmem.mp hc)⟩, by omega⟩

theorem dfFold_keys_nodup : ∀ (docs : List Doc) (m : List (Str × ℚ)),
    (mkeys m).Nodup →
    (mkeys (docs.foldl (fun m d => bumpAll m (mkeys (tf (tokenize d.text)))) m)).Nodup := by
  intro docs
  induction docs with
  | nil => intro m hn; exact hn
  | cons d docs ih =>
    intro m hn
    exact ih _ (bumpAll_keys_nodup _ _ hn)

theorem mkeys_map_keys (f : Str → α) (ks : List Str) :
    mkeys (ks.map (fun t => (t, f t))) = ks := by
  unfold mkeys
  rw [List.map_map]
  have hc : (Prod.fst ∘ fun t : Str => (t, f t)) = id := rfl
  rw [hc, List.map_id]

theorem buildIndex_idf (lg sq : ℚ → ℚ) (docs : List Doc) :
    (buildIndex lg sq docs).idf =
      ((docs.foldl buildStep ⟨[], [], []⟩).df).map
        (fun p => (p.1, lg ((1 + (docs.length : ℚ)) / (1 + p.2)) + 1)) := by
  have h1 : (buildIndex lg sq docs).idf =
      ((docs.foldl buildStep ⟨[], [], []⟩).df).foldl
        (fun m p => mset m p.1 (lg ((1 + (docs.length : ℚ)) / (1 + p.2)) + 1)) [] := rfl
  rw [h1]
  have h2 : ((docs.foldl buildStep ⟨[], [], []⟩).df).foldl
      (fun m p => mset m p.1 (lg ((1 + (docs.length : ℚ)) / (1 + p.2)) + 1)) [] =
      (((docs.foldl buildStep ⟨[], [], []⟩).df).map
        (fun p => (p.1, lg ((1 + (docs.length : ℚ)) / (1 + p.2)) + 1))).foldl
        (fun m p => mset m p.1 p.2) [] := by
    rw [List.foldl_map]
  rw [h2]
  have hn : (mkeys (((docs.foldl buildStep ⟨[], [], []⟩).df).map
      (fun p => (p.1, lg ((1 + (docs.length : ℚ)) / (1 + p.2)) + 1)))).Nodup := by
    rw [mkeys_map_val (fun x => lg ((1 + (docs.length : ℚ)) / (1 + x)) + 1)]
    rw [build_df]
    exact dfFold_keys_nodup docs [] (by simp [mkeys])
  have h3 := mofList_fresh
    (((docs.foldl buildStep ⟨[], [], []⟩).df).map
      (fun p => (p.1, lg ((1 + (docs.length : ℚ)) / (1 + p.2)) + 1))) [] hn
    (fun p _ => rfl)
  simpa using h3

theorem idf_lookup (lg sq : ℚ → ℚ) (docs : List Doc) (t : Str) :
    mget ((buildIndex lg sq docs).idf) t =
      if 0 < dfCount docs t
      then some (lg ((1 + (docs.length : ℚ)) / (1 + (dfCount docs t : ℚ))) + 1)
      else none := by
  rw [buildIndex_idf,
    mget_map_val (fun x => lg ((1 + (docs.length : ℚ)) / (1 + x)) + 1), build_df]
  by_cases h : dfCount docs t = 0
  · rw [if_neg (by omega)]
    have h0 : mget (docs.foldl
        (fun m d => bumpAll m (mkeys (tf (tokenize d.text)))) []) t = none :=
      (dfFold_none docs [] t).mpr ⟨rfl, h⟩
    rw [h0]
    rfl
  · rw [if_pos (by omega)]
    have hne : mget (docs.foldl
        (fun m d => bumpAll m (mkeys (tf (tokenize d.text)))) []) t ≠ none := by
      intro hc
      exact h ((dfFold_none docs [] t).mp hc).2
    rw [mget_eq_some_getD 0 hne]
    have hval : mgetD (docs.foldl
        (fun m d => bumpAll m (mkeys (tf (tokenize d.text)))) []) t 0 =
        (dfCount docs t : ℚ) := by
      have h1 := dfFold_val docs [] t
      simpa [mgetD, mget] using h1
    rw [hval]
    rfl

/-- The spec's raw (pre-normalization) query vector: each distinct query
token, in first-occurrence order, mapped to its term frequency times the
IDF weight (an unknown term — no IDF entry — gets weight `0`). -/
def specRawQueryVec (idf : List (Str × ℚ)) (q : Str) : List (Str × ℚ) :=
  (firstKeys (tokenize q)).map
    (fun t => (t, (countTok (tokenize q) t : ℚ) * mgetD idf t 0))

theorem tf_as_map (ts : List Str) :
    tf ts = (firstKeys ts).map (fun t => (t, (countTok ts t : ℚ))) := by
  refine assoc_ext _ _ ?_ ?_ ?_
  · rw [mkeys_tf, mkeys_map_keys]
  · rw [mkeys_tf]
    exact firstKeys_nodup ts
  · intro t
    rw [tf_lookup, mget_map_keys]
    by_cases h : t ∈ ts
    · rw [if_pos h, if_pos ((firstKeys_mem ts t).mpr h)]
    · rw [if_neg h, if_neg (fun hc => h ((firstKeys_mem ts t).mp hc))]

theorem queryVec_eq_spec (sq : ℚ → ℚ) (q : Str) (idf : List (Str × ℚ)) :
    queryVec sq q idf = normalize sq (specRawQueryVec idf q) := by
  simp only [queryVec, specRawQueryVec]
  congr 1
  rw [tf_as_map, List.map_map]
  have hcomp : (firstKeys (tokenize q)).map
      ((fun p : Str × ℚ => (p.1, p.2 * mgetD idf p.1 0)) ∘
        (fun t => (t, (countTok (tokenize q) t : ℚ)))) =
      (firstKeys (tokenize q)).map
        (fun t => (t, (countTok (tokenize q) t : ℚ) * mgetD idf t 0)) := rfl
  rw [hcomp]
  exact mofList_eq_self (by rw [mkeys_map_keys]; exact firstKeys_nodup _)

theorem normalize_lookup (sq : ℚ → ℚ) (v : List (Str × ℚ))
    (hn : (mkeys v).Nodup) :
    ∃ d : ℚ, ∀ t, mget (normalize sq v) t = (mget v t).map (fun x => x / d) := by
  refine ⟨if sq (v.foldl (fun a p => a + p.2 * p.2) 0) = 0 then 1
    else sq (v.foldl (fun a p => a + p.2 * p.2) 0), fun t => ?_⟩
  have h1 : normalize sq v = v.map (fun p =>
      (p.1, p.2 / (if sq (v.foldl (fun a p => a + p.2 * p.2) 0) = 0 then 1
        else sq (v.foldl (fun a p => a + p.2 * p.2) 0)))) := by
    unfold normalize
    exact mofList_eq_self (by
      rw [mkeys_map_val (fun x => x /
        (if sq (v.foldl (fun a p => a + p.2 * p.2) 0) = 0 then 1
          else sq (v.foldl (fun a p => a + p.2 * p.2) 0)))]
      exact hn)
  rw [h1, mget_map_val (fun x => x /
    (if sq (v.foldl (fun a p => a + p.2 * p.2) 0) = 0 then 1
      else sq (v.foldl (fun a p => a + p.2 * p.2) 0)))]

/-- **C7.**  In lexical mode the query vector is exactly the L2
normalization of the map sending each (lowercased, stripped,
whitespace-split) query token to its term frequency times the smoothed
IDF weight, where the IDF table built by `buildIndex` assigns precisely
`log((1 + N) / (1 + df(term))) + 1` to each term occurring in the corpus
(N counts document entries, df the entries containing the term) and no
entry to any other term; a query term with no IDF entry contributes a
component of exactly `0` to the query vector.  `lg`, `sq` model
`Math.log`, `Math.sqrt`. -/
theorem C7_lexical_tfidf_query_vector (lg sq : ℚ → ℚ) (docs : List Doc) (q : Str) :
    (∀ t : Str, mget ((buildIndex lg sq docs).idf) t =
      if 0 < dfCount docs t
      then some (lg ((1 + (docs.length : ℚ)) / (1 + (dfCount docs t : ℚ))) + 1)
      else none) ∧
    queryVec sq q ((buildIndex lg sq docs).idf) =
      normalize sq (specRawQueryVec ((buildIndex lg sq docs).idf) q) ∧
    (∀ t : Str, mget ((buildIndex lg sq docs).idf) t = none →
      (mget (queryVec sq q ((buildIndex lg sq docs).idf)) t).getD 0 = 0) := by
  refine ⟨fun t => idf_lookup lg sq docs t, queryVec_eq_spec sq q _, ?_⟩
  intro t hnone
  rw [queryVec_eq_spec sq q _]
  obtain ⟨d, hd⟩ := normalize_lookup sq
    (specRawQueryVec ((buildIndex lg sq docs).idf) q)
    (by unfold specRawQueryVec; rw [mkeys_map_keys]; exact firstKeys_nodup _)
  rw [hd t]
  unfold specRawQueryVec
  rw [mget_map_keys]
  by_cases h : t ∈ firstKeys (tokenize q)
  · rw [if_pos h]
    have h0 : mgetD ((buildIndex lg sq docs).idf) t 0 = 0 := by
      simp [mgetD, hnone]
    rw [h0]
    simp
  · rw [if_neg h]
    rfl

theorem C7_witness :
    ((∀ t : Str, mget ((buildIndex (fun _ => 0) (fun _ => 1)
        [⟨strL ("d1"), [], [], strL ("train car")⟩]).idf) t =
      if 0 < dfCount [⟨strL ("d1"), [], [], strL ("train car")⟩] t
      then some ((fun _ : ℚ => (0 : ℚ))
        ((1 + (([⟨strL ("d1"), [], [], strL ("train car")⟩] : List Doc).length : ℚ)) /
          (1 + (dfCount [⟨strL ("d1"), [], [], strL ("train car")⟩] t : ℚ))) + 1)
      else none) ∧
    queryVec (fun _ => 1) (strL ("train plane"))
        ((buildIndex (fun _ => 0) (fun _ => 1)
          [⟨strL ("d1"), [], [], strL ("train car")⟩]).idf) =
      normalize (fun _ => 1)
        (specRawQueryVec ((buildIndex (fun _ => 0) (fun _ => 1)
          [⟨strL ("d1"), [], [], strL ("train car")⟩]).idf) (strL ("train plane")))) ∧
    (mget ((buildIndex (fun _ => 0) (fun _ => 1)
        [⟨strL ("d1"), [], [], strL ("train car")⟩]).idf) (strL ("plane")) = none) ∧
    (mget (queryVec (fun _ => 1) (strL ("train plane"))
        ((buildIndex (fun _ => 0) (fun _ => 1)
          [⟨strL ("d1"), [], [], strL ("train car")⟩]).idf)) (strL ("plane"))).getD 0 = 0 :=
  ⟨⟨(C7_lexical_tfidf_query_vector (fun _ => 0) (fun _ => 1)
      [⟨strL ("d1"), [], [], strL ("train car")⟩] (strL ("train plane"))).1,
    (C7_lexical_tfidf_query_vector (fun _ => 0) (fun _ => 1)
      [⟨strL ("d1"), [], [], strL ("train car")⟩] (strL ("train plane"))).2.1⟩,
    by with_unfolding_all decide,
    (C7_lexical_tfidf_query_vector (fun _ => 0) (fun _ => 1)
      [⟨strL ("d1"), [], [], strL ("train car")⟩] (strL ("train plane"))).2.2
      (strL ("plane")) (by with_unfolding_all decide)⟩

end TL
